import Mathlib

/-!
Verification of the CFG dominance analysis in `src/cfg.c`.

The C program keeps a global pool of `CFGNode` records (id, fixed-capacity
successor/predecessor offset arrays, fixed-capacity dominator array).
`parse_cgf_from_file` tokenizes each input line (strtok with delimiters
" \n\t:" for the first token and " \n\t," for the rest), converts tokens to
ids with `strtol(tok, NULL, 10)`, resolves pool offsets with
`get_cfg_node_for_bb`, and records the bidirectional adjacency.  It then
calls `calculate_dominance`, which initializes the entry's dominator set to
{0} and every other `numDoms` to 0 (the "empty = universal set" sentinel),
computes a recursive depth-first reverse-postorder into the `rpot` array,
and iterates `update_dom_set` over `rpot[1..N-1]` until a pass reports no
change.

The embedding below mirrors that code at the level of an already-tokenized
stream: an input is a list of lines, each a list of strtok tokens.  C arrays
are Lean lists; pool offsets are list indices; out-of-range accesses (which
are undefined in the C) are modeled by `List.getD` with a default node, and
the fixed array capacities are tracked by an explicit in-bounds flag
threaded through ingestion.
-/

/-- Whitespace test matching C `isspace` for the characters `strtol` skips. -/
def isSpaceChar (c : Char) : Bool :=
  c = ' ' || c = '\t' || c = '\n' || c = '\x0b' || c = '\x0c' || c = '\r'

/-- Accumulate base-10 digits, stopping at the first non-digit, as `strtol`
does after sign handling. -/
def digitsVal : List Char → Int → Int
  | [], acc => acc
  | c :: cs, acc =>
    if '0' ≤ c ∧ c ≤ '9' then digitsVal cs (acc * 10 + (c.toNat - '0'.toNat : Nat))
    else acc

/-- Model of `strtol(tok, NULL, 10)`: skip whitespace, optional sign, then
digits; yields 0 when no digits are present. -/
def strtol10 (s : String) : Int :=
  match s.data.dropWhile isSpaceChar with
  | '-' :: rest => - digitsVal rest 0
  | '+' :: rest => digitsVal rest 0
  | cs => digitsVal cs 0

/-- Capacity of the `succs` array of a `CFGNode` (`MAX_SUCCESSORS`). -/
def MAX_SUCCESSORS : Nat := 16

/-- Capacity of the `preds` array of a `CFGNode` (`MAX_PREDECESSORS`). -/
def MAX_PREDECESSORS : Nat := 16

/-- One basic-block record of the pool.  The C struct stores fixed arrays
plus explicit counts; here each array/count pair is one list.  `doms = []`
is the code's sentinel for the universal set during solving. -/
structure CFGNode where
  id : Int
  succs : List Nat := []
  preds : List Nat := []
  doms : List Nat := []
deriving Repr, DecidableEq

instance : Inhabited CFGNode := ⟨{ id := 0 }⟩

/-- Update the node stored at offset `i` (no-op when out of range, where the
C would have undefined behavior). -/
def setNode (pool : List CFGNode) (i : Nat) (f : CFGNode → CFGNode) : List CFGNode :=
  pool.set i (f (pool.getD i default))

/-- `get_cfg_node_for_bb`: linear search of the pool by id; on a miss a new
node with empty adjacency is appended (the realloc growth never fails in the
model; the C asserts on allocation failure).  Returns the pool and the
offset of the node. -/
def get_cfg_node_for_bb (pool : List CFGNode) (bbID : Int) : List CFGNode × Nat :=
  match pool.findIdx? (fun nd => nd.id == bbID) with
  | some i => (pool, i)
  | none => (pool ++ [{ id := bbID }], pool.length)

/-- Process one destination token of a line: resolve the destination node,
append it to the source's successors and the source to its predecessors.
The boolean records whether every array write so far was inside the
fixed capacities (`succs[numSuccs]` with `numSuccs < MAX_SUCCESSORS`, and
likewise for `preds`); the C performs the writes unconditionally. -/
def parse_dest (st : List CFGNode × Bool) (srcOff : Nat) (tok : String) :
    List CFGNode × Bool :=
  let r := get_cfg_node_for_bb st.1 (strtol10 tok)
  let ok1 := st.2 && decide ((r.1.getD srcOff default).succs.length < MAX_SUCCESSORS)
  let pool2 := setNode r.1 srcOff (fun nd => { nd with succs := nd.succs ++ [r.2] })
  let ok2 := ok1 && decide ((pool2.getD r.2 default).preds.length < MAX_PREDECESSORS)
  let pool3 := setNode pool2 r.2 (fun nd => { nd with preds := nd.preds ++ [srcOff] })
  (pool3, ok2)

/-- Process one tokenized line: skip empty lines and `!` comments, resolve
the source id, then record one edge per remaining token. -/
def parse_line (st : List CFGNode × Bool) (toks : List String) : List CFGNode × Bool :=
  match toks with
  | [] => st
  | tok :: rest =>
    if tok.data.head? = some '!' then st
    else
      let r := get_cfg_node_for_bb st.1 (strtol10 tok)
      rest.foldl (fun s t => parse_dest s r.2 t) (r.1, st.2)

/-- Ingest a tokenized stream into a fresh pool, also reporting whether all
adjacency writes stayed within the fixed array capacities. -/
def ingest_checked (lines : List (List String)) : List CFGNode × Bool :=
  lines.foldl parse_line ([], true)

/-- The graph store built from a tokenized stream (fresh run). -/
def ingest (lines : List (List String)) : List CFGNode :=
  (ingest_checked lines).1

/-- `intersect_dom_sets`: destination size 0 is the universal sentinel and
is overwritten by a copy of the source; a size-0 source leaves the
destination unchanged; otherwise the nested loops emit `dest[i]` once per
equal `src[j]`. -/
def intersect_dom_sets (dest src : List Nat) : List Nat :=
  if dest.length = 0 then src
  else if 0 < src.length then
    dest.flatMap (fun d => (src.filter (fun s => s = d)).map (fun _ => d))
  else dest

/-- `update_dom_set`: fold the intersection of all predecessors' dominator
sets, add the node itself when missing, store the result, and report
whether the stored size changed. -/
def update_dom_set (pool : List CFGNode) (bbOffset : Nat) : List CFGNode × Bool :=
  let nd := pool.getD bbOffset default
  let tempSet := nd.preds.foldl
    (fun acc p => intersect_dom_sets acc (pool.getD p default).doms) []
  let tempSet2 := if bbOffset ∈ tempSet then tempSet else tempSet ++ [bbOffset]
  (setNode pool bbOffset (fun n => { n with doms := tempSet2 }),
   nd.doms.length != tempSet2.length)

/-- One pass of the fixed-point loop: update every offset in `order`,
or-ing the per-node change flags as `changed |= update_dom_set(...)`. -/
def run_pass (order : List Nat) (pool : List CFGNode) : List CFGNode × Bool :=
  order.foldl (fun st off =>
    let r := update_dom_set st.1 off
    (r.1, st.2 || r.2)) (pool, false)

/-- Initialization in `calculate_dominance`: the entry's dominator set
becomes {0}; every other node's count is reset to 0 (universal sentinel). -/
def init_dom_sets (pool : List CFGNode) : List CFGNode :=
  (setNode pool 0 (fun nd => { nd with doms := [0] })).mapIdx
    (fun i nd => if 1 ≤ i then { nd with doms := [] } else nd)

/-- `calculate_reverse_post_order`: mark the node visited, recurse into its
successors in declaration order (the fold threads the visited set left to
right), and append the node to the postorder sequence.  Fuel bounds the
recursion depth so the function is total and computable; the wrapper
supplies enough fuel for the whole traversal. -/
def dfs_visit (pool : List CFGNode) : Nat → List Bool → Nat → List Bool × List Nat
  | 0, visited, _ => (visited, [])
  | fuel + 1, visited, b =>
    if visited.getD b false then (visited, [])
    else
      let r := (pool.getD b default).succs.foldl
        (fun st s =>
          let r1 := dfs_visit pool fuel st.1 s
          (r1.1, st.2 ++ r1.2))
        (visited.set b true, [])
      (r.1, r.2 ++ [b])

/-- Fuel that is ample for the depth-first traversal: one unit per node plus
one per declared successor. -/
def dfs_fuel (pool : List CFGNode) : Nat :=
  pool.length + (pool.map (fun nd => nd.succs.length)).sum + 1

/-- The postorder sequence of the traversal from offset 0 (entry). -/
def postOrder (pool : List CFGNode) : List Nat :=
  (dfs_visit pool (dfs_fuel pool) (List.replicate pool.length false) 0).2

/-- The `rpot` array: slot `N-1-pot` receives the node finishing at
postorder index `pot`; slots never written stay `none` (uninitialized
memory in the C). -/
def rpot_slots (n : Nat) (post : List Nat) : List (Option Nat) :=
  post.enum.foldl (fun slots kb => slots.set (n - 1 - kb.1) (some kb.2))
    (List.replicate n none)

/-- The offsets the fixed-point loop reads: `rpot[1..N-1]`.  Uninitialized
slots are filled with 0; `loop_order_defined` states that none were read. -/
def loop_order (pool : List CFGNode) : List Nat :=
  ((rpot_slots pool.length (postOrder pool)).drop 1).map (fun o => o.getD 0)

/-- All `rpot` slots the loop reads were actually written by the traversal
(the executions with defined behavior in C). -/
def loop_order_defined (pool : List CFGNode) : Prop :=
  ∀ o ∈ (rpot_slots pool.length (postOrder pool)).drop 1, o.isSome

instance (pool : List CFGNode) : Decidable (loop_order_defined pool) :=
  List.decidableBAll _ _

/-- The non-entry nodes in reverse postorder (the order the specification
describes for the fixed-point loop). -/
def nonentry_rpo (pool : List CFGNode) : List Nat :=
  (postOrder pool).reverse.filter (fun b => b != 0)

/-- The fixed-point loop: run passes until one reports no change.  `fuel`
bounds the iteration so the model is total; the termination development
shows a fixed point is reached, and the concrete evaluations check that
their result is converged. -/
def solve_loop (order : List Nat) : Nat → List CFGNode → List CFGNode
  | 0, pool => pool
  | fuel + 1, pool =>
    let r := run_pass order pool
    if r.2 then solve_loop order fuel r.1 else r.1

/-- `calculate_dominance`: initialize, sequence, and iterate to the fixed
point. -/
def calculate_dominance (pool : List CFGNode) : List CFGNode :=
  let p1 := init_dom_sets pool
  solve_loop (loop_order p1) (p1.length * p1.length + 2) p1

/-- `parse_cgf_from_file` including its trailing `calculate_dominance`
call, starting from the given global pool state.  The C frees the previous
pool's memory on re-entry but resets neither `cfgNodePool` nor the node
counters, so a later call keeps operating on the old store; `st` models
that persisting global state (a fresh program run passes `[]`). -/
def parse_cgf_from_file (st : List CFGNode) (lines : List (List String)) :
    List CFGNode :=
  calculate_dominance (lines.foldl parse_line (st, true)).1

/-- The graph store as left by `parse_cgf_from_file` before solving, from
global state `st`. -/
def store_after_parse (st : List CFGNode) (lines : List (List String)) :
    List CFGNode :=
  (lines.foldl parse_line (st, true)).1

/-- In-bounds condition for the solver's initialization write
`cfgNodePool[0].doms[0] = 0` and for the traversal's entry assertion
`0 < currentNumCFGNodes`. -/
def entryInitValid (pool : List CFGNode) : Prop :=
  0 < pool.length

instance (pool : List CFGNode) : Decidable (entryInitValid pool) :=
  Nat.decLt _ _

/-- The successor list stored for offset `i`. -/
def succsOf (pool : List CFGNode) (i : Nat) : List Nat :=
  (pool.getD i default).succs

/-- Successor-step relation of the stored graph. -/
def succStep (pool : List CFGNode) (i j : Nat) : Prop :=
  j ∈ succsOf pool i

/-- Reachability from the entry (offset 0) along stored successor edges. -/
def ReachableFromEntry (pool : List CFGNode) (n : Nat) : Prop :=
  Relation.ReflTransGen (succStep pool) 0 n

/-- The rank formula the specification states for the traversal:
`reachableCount - 1 - postorderCounter`, with `reachableCount` the number of
visited nodes — contrast `rpot_slots`, which uses the total node count. -/
def rpot_slots_spec (n : Nat) (post : List Nat) : List (Option Nat) :=
  post.enum.foldl (fun slots kb => slots.set (post.length - 1 - kb.1) (some kb.2))
    (List.replicate n none)

/-- The dominator list stored for offset `i`. -/
def domsOf (pool : List CFGNode) (i : Nat) : List Nat :=
  (pool.getD i default).doms

/-- Some node of the pool carries the given id. -/
def hasId (pool : List CFGNode) (v : Int) : Prop :=
  ∃ i, i < pool.length ∧ (pool.getD i default).id = v

/-- Bookkeeping facts tying a traversal's emitted sequence `post` to the
visited array before (`v0`) and after (`v1`): the array keeps its length,
the sequence has no duplicates, its nodes were unvisited before and are
visited after, marks are never cleared, and all nodes are in range. -/
def DfsPost (pool : List CFGNode) (v0 v1 : List Bool) (post : List Nat) : Prop :=
  v1.length = v0.length ∧ post.Nodup ∧
  (∀ n ∈ post, v0.getD n false = false) ∧
  (∀ m, v0.getD m false = true → v1.getD m false = true) ∧
  (∀ n ∈ post, v1.getD n false = true) ∧
  (∀ n ∈ post, n < pool.length)

/-- The predecessor list stored for offset `i`. -/
def predsOf (pool : List CFGNode) (i : Nat) : List Nat :=
  (pool.getD i default).preds

/-- Tokenized diamond input `0: 1, 2 / 1: 3 / 2: 3` (ids equal offsets:
entry 0, branches 1 and 2, merge 3). -/
def diamondLines : List (List String) := [["0", "1", "2"], ["1", "3"], ["2", "3"]]

/-- Tokenized input `0: 1 / 1: 0 / 2`: a two-node cycle through the entry
plus one isolated (unreachable) node. -/
def entryCycleLines : List (List String) := [["0", "1"], ["1", "0"], ["2"]]

/-- Tokenized input `0: 1 / 2`: one edge plus one unreachable node. -/
def unreachableLines : List (List String) := [["0", "1"], ["2"]]

/-- A line whose source token is not a number. -/
def malformedLines : List (List String) := [["abc", "1"]]

/-- One line declaring seventeen successors for node 0 — one more than
`MAX_SUCCESSORS`. -/
def seventeenDestLines : List (List String) :=
  [["0", "1", "2", "3", "4", "5", "6", "7", "8", "9", "10", "11", "12", "13",
    "14", "15", "16", "17"]]

/-- One line declaring sixteen successors — exactly the capacity. -/
def sixteenDestLines : List (List String) :=
  [["0", "1", "2", "3", "4", "5", "6", "7", "8", "9", "10", "11", "12", "13",
    "14", "15", "16"]]

/-- Structural well-formedness of a graph store: every stored successor and
predecessor offset is in range, and every successor edge has a matching
predecessor entry (the parser records both directions of each edge). -/
def PoolWF (pool : List CFGNode) : Prop :=
  (∀ i, ∀ s ∈ succsOf pool i, s < pool.length) ∧
  (∀ i, ∀ p ∈ predsOf pool i, p < pool.length) ∧
  (∀ i j, j ∈ succsOf pool i → i ∈ predsOf pool j)

/-- The dominator list `update_dom_set` computes for offset `n`: the fold of
`intersect_dom_sets` over the predecessors' sets, with `n` appended when
missing. -/
def dom_candidate (P : List CFGNode) (n : Nat) : List Nat :=
  let temp := (predsOf P n).foldl
    (fun acc p => intersect_dom_sets acc (domsOf P p)) []
  if n ∈ temp then temp else temp ++ [n]

/-- The set a stored dominator list denotes in a pool of `N` nodes: size
zero is the universal sentinel, anything else lists its members. -/
def denoteD (N : Nat) (l : List Nat) : Finset Nat :=
  if l = [] then Finset.range N else l.toFinset

/-- A healthy dominator list: no duplicates, members in range, and — when
concrete — containing the entry offset 0. -/
def SetOk (N : Nat) (l : List Nat) : Prop :=
  l.Nodup ∧ (∀ d ∈ l, d < N) ∧ (l ≠ [] → 0 ∈ l)

/-- Pointwise denotational comparison of two solver states. -/
def DomsLe (N : Nat) (S T : List CFGNode) : Prop :=
  ∀ i, denoteD N (domsOf S i) ⊆ denoteD N (domsOf T i)

/-- Solver-state invariant: the entry's set is exactly `{0}` and every
stored dominator list is healthy. -/
def DomInv (N : Nat) (P : List CFGNode) : Prop :=
  domsOf P 0 = [0] ∧ ∀ i, SetOk N (domsOf P i)

/-- Termination measure of one dominator list: the universal sentinel
weighs `N + 1`, a concrete list weighs its length. -/
def domMu (N : Nat) (l : List Nat) : Nat :=
  if l = [] then N + 1 else l.length

/-- `k` passes of the fixed-point loop (the pool component only). -/
def run_passes (order : List Nat) : Nat → List CFGNode → List CFGNode
  | 0, pool => pool
  | k + 1, pool => run_passes order k (run_pass order pool).1

-- Sanity evaluations used during development are kept as examples.
example : strtol10 "17" = 17 := by decide
example : strtol10 "abc" = 0 := by decide
example : strtol10 "-4" = -4 := by decide

/-- C1: for the diamond CFG `entry → {a, b} → merge`, after the solver
converges the dominator set of the merge node (offset 3) is exactly
{entry, merge} = {0, 3}; neither branch 1 nor branch 2 is in it.  The
final conjuncts check that the computation really converged (one more
pass reports no change) and that the loop read no uninitialized `rpot`
slot. -/
theorem c1_diamond_merge_dominators :
    domsOf (calculate_dominance (ingest diamondLines)) 3 = [0, 3] ∧
    (1 : Nat) ∉ domsOf (calculate_dominance (ingest diamondLines)) 3 ∧
    (2 : Nat) ∉ domsOf (calculate_dominance (ingest diamondLines)) 3 ∧
    (run_pass (loop_order (init_dom_sets (ingest diamondLines)))
      (calculate_dominance (ingest diamondLines))).2 = false ∧
    loop_order_defined (init_dom_sets (ingest diamondLines)) := by
  decide

/-- C2: the claim `dominators(0) = {0}` for every input graph fails.  On
`0: 1 / 1: 0 / 2` the unreachable node 2 shifts the entry into `rpot`
slot 1, the loop updates the entry, and its dominator set converges to
{0, 1}.  The run is a defined-behavior execution (no uninitialized slot
is read) and the result shown is the converged fixed point. -/
theorem c2_entry_dom_set_corrupted :
    domsOf (calculate_dominance (ingest entryCycleLines)) 0 = [0, 1] ∧
    0 ∈ loop_order (init_dom_sets (ingest entryCycleLines)) ∧
    (run_pass (loop_order (init_dom_sets (ingest entryCycleLines)))
      (calculate_dominance (ingest entryCycleLines))).2 = false ∧
    loop_order_defined (init_dom_sets (ingest entryCycleLines)) := by
  decide

/-- C3, counterexample: on `0: 1 / 2` the fixed-point loop's order
contains the entry (so the loop does not update only reachable non-entry
nodes), and the unreachable node 2 is surfaced with `doms = []` — the very
encoding the solver uses for the universal set — not with a distinct
"no dominator data" state. -/
theorem c3_counterexample :
    0 ∈ loop_order (init_dom_sets (ingest unreachableLines)) ∧
    domsOf (calculate_dominance (ingest unreachableLines)) 2 = [] ∧
    loop_order_defined (init_dom_sets (ingest unreachableLines)) := by
  decide

/-- C4, counterexample: the traversal stores node `b` finishing at
postorder index `pot` into slot `currentNumCFGNodes - 1 - pot`, not slot
`reachableCount - 1 - pot` as the claim states; on `0: 1 / 2` (three
nodes, two reachable) the two formulas place the ranks differently. -/
theorem c4_counterexample :
    rpot_slots (ingest unreachableLines).length (postOrder (ingest unreachableLines)) ≠
      rpot_slots_spec (ingest unreachableLines).length
        (postOrder (ingest unreachableLines)) := by
  decide

/-- C7, counterexample: on the line `abc : 1` the unparseable token `abc`
is not skipped: `strtol` turns it into id 0, a node is created for it, and
the edge `0 → 1` is recorded with it as source. -/
theorem c7_counterexample :
    (ingest malformedLines).length = 2 ∧
    ((ingest malformedLines).getD 0 default).id = strtol10 "abc" ∧
    ((ingest malformedLines).getD 0 default).succs = [1] ∧
    ((ingest malformedLines).getD 1 default).preds = [0] := by
  decide

/-- C8: re-running ingestion does not rebuild the store from scratch.  The
C frees the pool's memory but resets neither the pool pointer nor the node
counters, so a second `parse_cgf_from_file` call keeps the stale store
(modeled here as the persisting global state) and appends every edge a
second time: after two runs on `0: 1`, node 0's successor list is [1, 1],
not the [1] of a fresh run. -/
theorem c8_global_store_not_discarded :
    ((store_after_parse (store_after_parse [] [["0", "1"]]) [["0", "1"]]).getD 0
        default).succs = [1, 1] ∧
    ((store_after_parse [] [["0", "1"]]).getD 0 default).succs = [1] ∧
    store_after_parse (store_after_parse [] [["0", "1"]]) [["0", "1"]] ≠
      store_after_parse [] [["0", "1"]] := by
  decide

/-- C9, counterexample: a seventeenth successor of one node is appended at
index 16 of the sixteen-element `succs` array; the in-bounds flag of the
ingestion model records the out-of-range write. -/
theorem c9_counterexample :
    (ingest_checked seventeenDestLines).2 = false := by
  decide

theorem intersect_dom_sets_nil_left (src : List Nat) :
    intersect_dom_sets [] src = src := by
  simp [intersect_dom_sets]

theorem intersect_dom_sets_nil_right (dest : List Nat) (hd : dest ≠ []) :
    intersect_dom_sets dest [] = dest := by
  simp [intersect_dom_sets, hd]

theorem intersect_dom_sets_mem (dest src : List Nat) (hd : dest ≠ [])
    (hs : src ≠ []) (x : Nat) :
    x ∈ intersect_dom_sets dest src ↔ x ∈ dest ∧ x ∈ src := by
  have h1 : ¬ dest.length = 0 := by simpa [List.length_eq_zero] using hd
  have h2 : 0 < src.length := List.length_pos.mpr hs
  simp only [intersect_dom_sets, if_neg h1, if_pos h2, List.mem_flatMap,
    List.mem_map, List.mem_filter]
  constructor
  · rintro ⟨d, hdm, ⟨s, ⟨hsm, hsd⟩, hxd⟩⟩
    subst hxd
    exact ⟨hdm, by simpa [of_decide_eq_true hsd] using hsm⟩
  · rintro ⟨hxd, hxs⟩
    exact ⟨x, hxd, ⟨x, ⟨hxs, by simp⟩, rfl⟩⟩

/-- C5: the universal sentinel (size-zero set) is the identity of the set
intersection: a sentinel destination is overwritten by the source operand,
a sentinel source leaves the destination unchanged, and two concrete
operands produce their element-wise intersection. -/
theorem c5_sentinel_is_identity (dest src : List Nat) :
    (dest = [] → intersect_dom_sets dest src = src) ∧
    (dest ≠ [] → src = [] → intersect_dom_sets dest src = dest) ∧
    (dest ≠ [] → src ≠ [] →
      ∀ x : Nat, x ∈ intersect_dom_sets dest src ↔ x ∈ dest ∧ x ∈ src) := by
  refine ⟨fun h => ?_, fun hd hs => ?_, fun hd hs x => ?_⟩
  · subst h; exact intersect_dom_sets_nil_left src
  · subst hs; exact intersect_dom_sets_nil_right dest hd
  · exact intersect_dom_sets_mem dest src hd hs x

/-- Witness for C5 at concrete operands. -/
theorem c5_sentinel_is_identity_witness :
    intersect_dom_sets [] [5] = [5] ∧
    intersect_dom_sets [1, 2] [] = [1, 2] ∧
    (2 ∈ intersect_dom_sets [1, 2, 3] [2, 4] ↔ 2 ∈ [1, 2, 3] ∧ 2 ∈ [2, 4]) :=
  ⟨(c5_sentinel_is_identity [] [5]).1 rfl,
   (c5_sentinel_is_identity [1, 2] []).2.1 (by decide) rfl,
   (c5_sentinel_is_identity [1, 2, 3] [2, 4]).2.2 (by decide) (by decide) 2⟩

theorem setNode_length (pool : List CFGNode) (i : Nat) (f : CFGNode → CFGNode) :
    (setNode pool i f).length = pool.length := by
  simp [setNode]

theorem setNode_getD_ne (pool : List CFGNode) (i : Nat) (f : CFGNode → CFGNode)
    (j : Nat) (h : j ≠ i) :
    (setNode pool i f).getD j default = pool.getD j default := by
  simp [setNode, List.getD_eq_getElem?_getD, List.getElem?_set_ne (Ne.symm h)]

theorem setNode_getD_self (pool : List CFGNode) (i : Nat) (f : CFGNode → CFGNode)
    (h : i < pool.length) :
    (setNode pool i f).getD i default = f (pool.getD i default) := by
  simp [setNode, List.getD_eq_getElem?_getD, List.getElem?_set_self h]

theorem setNode_getD_oob (pool : List CFGNode) (i : Nat) (f : CFGNode → CFGNode)
    (j : Nat) (h : pool.length ≤ j) :
    (setNode pool i f).getD j default = pool.getD j default := by
  rw [List.getD_eq_getElem?_getD, List.getD_eq_getElem?_getD,
    List.getElem?_eq_none (by simpa [setNode_length] using h),
    List.getElem?_eq_none h]

theorem setNode_id (pool : List CFGNode) (i : Nat) (f : CFGNode → CFGNode)
    (hf : ∀ nd, (f nd).id = nd.id) (j : Nat) :
    ((setNode pool i f).getD j default).id = ((pool.getD j default)).id := by
  by_cases hl : j < pool.length
  · by_cases hji : j = i
    · subst hji; rw [setNode_getD_self _ _ _ hl, hf]
    · rw [setNode_getD_ne _ _ _ _ hji]
  · rw [setNode_getD_oob _ _ _ _ (Nat.le_of_not_lt hl)]

theorem get_cfg_length_le (pool : List CFGNode) (v : Int) :
    pool.length ≤ (get_cfg_node_for_bb pool v).1.length := by
  unfold get_cfg_node_for_bb
  cases hf : pool.findIdx? (fun nd => nd.id == v) with
  | none => simp
  | some i => simp

theorem get_cfg_getD_lt (pool : List CFGNode) (v : Int) (j : Nat)
    (h : j < pool.length) :
    (get_cfg_node_for_bb pool v).1.getD j default = pool.getD j default := by
  unfold get_cfg_node_for_bb
  cases hf : pool.findIdx? (fun nd => nd.id == v) with
  | none =>
    simp [List.getD_eq_getElem?_getD, List.getElem?_append_left h]
  | some i => rfl

theorem get_cfg_hasId (pool : List CFGNode) (v : Int) :
    hasId (get_cfg_node_for_bb pool v).1 v := by
  unfold get_cfg_node_for_bb hasId
  cases hf : pool.findIdx? (fun nd => nd.id == v) with
  | none =>
    refine ⟨pool.length, by simp, ?_⟩
    simp [List.getD_eq_getElem?_getD, List.getElem?_concat_length]
  | some i =>
    rcases List.findIdx?_eq_some_iff_getElem.mp hf with ⟨hi, hpi, _⟩
    refine ⟨i, hi, ?_⟩
    simp only [List.getD_eq_getElem?_getD, List.getElem?_eq_getElem hi]
    exact eq_of_beq hpi

theorem get_cfg_hasId_mono (pool : List CFGNode) (v w : Int) (h : hasId pool w) :
    hasId (get_cfg_node_for_bb pool v).1 w := by
  rcases h with ⟨i, hi, hid⟩
  exact ⟨i, Nat.lt_of_lt_of_le hi (get_cfg_length_le pool v),
    by rw [get_cfg_getD_lt pool v i hi]; exact hid⟩

theorem parse_dest_hasId_mono (st : List CFGNode × Bool) (srcOff : Nat)
    (tok : String) (w : Int) (h : hasId st.1 w) :
    hasId (parse_dest st srcOff tok).1 w := by
  simp only [parse_dest, hasId]
  have h1 := get_cfg_hasId_mono st.1 (strtol10 tok) w h
  rcases h1 with ⟨i, hi, hid⟩
  refine ⟨i, by simpa [setNode_length] using hi, ?_⟩
  rw [setNode_id, setNode_id]
  · exact hid
  · intro nd; rfl
  · intro nd; rfl

theorem parse_dest_hasId_tok (st : List CFGNode × Bool) (srcOff : Nat)
    (tok : String) :
    hasId (parse_dest st srcOff tok).1 (strtol10 tok) := by
  simp only [parse_dest, hasId]
  have h1 := get_cfg_hasId st.1 (strtol10 tok)
  rcases h1 with ⟨i, hi, hid⟩
  refine ⟨i, by simpa [setNode_length] using hi, ?_⟩
  rw [setNode_id, setNode_id]
  · exact hid
  · intro nd; rfl
  · intro nd; rfl

theorem parse_dest_fold_hasId (rest : List String) :
    ∀ (st : List CFGNode × Bool) (srcOff : Nat),
      (∀ w, hasId st.1 w →
        hasId (rest.foldl (fun s t => parse_dest s srcOff t) st).1 w) ∧
      (∀ t ∈ rest,
        hasId (rest.foldl (fun s t => parse_dest s srcOff t) st).1 (strtol10 t)) := by
  induction rest with
  | nil => intro st srcOff; exact ⟨fun w h => h, by simp⟩
  | cons t ts ih =>
    intro st srcOff
    constructor
    · intro w h
      simpa using (ih (parse_dest st srcOff t) srcOff).1 w
        (parse_dest_hasId_mono st srcOff t w h)
    · intro u hu
      rcases List.mem_cons.mp hu with rfl | hu'
      · simpa using (ih (parse_dest st srcOff u) srcOff).1 (strtol10 u)
          (parse_dest_hasId_tok st srcOff u)
      · simpa using (ih (parse_dest st srcOff t) srcOff).2 u hu'

/-- C7, amended: a token that is not parseable as a number is not skipped.
`strtol` converts it to an id (0 when it has no digits), and every token of
a non-comment line — source and destinations alike — ends up with a node of
the pool carrying its `strtol` value as id; parsing simply continues with
the rest of the line. -/
theorem c7_malformed_token_parsed_as_id :
    strtol10 "abc" = 0 ∧
    ∀ (st : List CFGNode × Bool) (tok : String) (rest : List String),
      ¬ tok.data.head? = some '!' →
      ∀ t ∈ tok :: rest, hasId (parse_line st (tok :: rest)).1 (strtol10 t) := by
  refine ⟨by decide, ?_⟩
  intro st tok rest hc t ht
  unfold parse_line
  simp only [if_neg hc]
  rcases List.mem_cons.mp ht with rfl | ht'
  · exact (parse_dest_fold_hasId rest _ _).1 (strtol10 t)
      (by simpa using get_cfg_hasId st.1 (strtol10 t))
  · exact (parse_dest_fold_hasId rest _ _).2 t ht'

/-- Witness for C7 (amended) at the malformed line `abc : 1`. -/
theorem c7_malformed_token_parsed_as_id_witness :
    hasId (parse_line ([], true) ["abc", "1"]).1 (strtol10 "abc") :=
  c7_malformed_token_parsed_as_id.2 ([], true) "abc" ["1"] (by decide) "abc"
    (by simp)

theorem parse_line_skip (st : List CFGNode × Bool) (l : List String)
    (h : l = [] ∨ ∃ t rest, l = t :: rest ∧ t.data.head? = some '!') :
    parse_line st l = st := by
  rcases h with rfl | ⟨t, rest, rfl, ht⟩
  · rfl
  · simp [parse_line, ht]

theorem parse_fold_skip (lines : List (List String)) :
    ∀ st : List CFGNode × Bool,
      (∀ l ∈ lines, l = [] ∨ ∃ t rest, l = t :: rest ∧ t.data.head? = some '!') →
      lines.foldl parse_line st = st := by
  induction lines with
  | nil => intro st _; rfl
  | cons l ls ih =>
    intro st h
    rw [List.foldl_cons, parse_line_skip st l (h l (by simp))]
    exact ih st (fun l' hl' => h l' (by simp [hl']))

/-- C10, amended: the pipeline runs the dominance solver unconditionally,
but on a stream that declares no ids (only blank and comment lines) the
pool is empty, and the solver's unconditional entry write
`cfgNodePool[0].doms[0] = 0` (and the traversal's assertion
`0 < currentNumCFGNodes`) has no valid pool storage to touch. -/
theorem c10_solver_runs_on_empty_pool (lines : List (List String))
    (h : ∀ l ∈ lines, l = [] ∨ ∃ t rest, l = t :: rest ∧ t.data.head? = some '!') :
    parse_cgf_from_file [] lines = calculate_dominance [] ∧
    ingest lines = [] ∧ ¬ entryInitValid (ingest lines) := by
  have h1 : ingest lines = [] := by
    unfold ingest ingest_checked
    rw [parse_fold_skip lines ([], true) h]
  refine ⟨?_, h1, ?_⟩
  · unfold parse_cgf_from_file
    rw [parse_fold_skip lines ([], true) h]
  · rw [h1]
    simp [entryInitValid]

/-- Witness for C10 (amended) on a blank line plus a comment line. -/
theorem c10_solver_runs_on_empty_pool_witness :
    ingest [[], ["!c"]] = [] ∧ ¬ entryInitValid (ingest [[], ["!c"]]) :=
  (c10_solver_runs_on_empty_pool [[], ["!c"]]
    (by
      intro l hl
      rcases List.mem_cons.mp hl with rfl | hl'
      · exact Or.inl rfl
      · rcases List.mem_cons.mp hl' with rfl | h''
        · exact Or.inr ⟨"!c", [], rfl, by decide⟩
        · simp at h'')).2

/-- C9, amended: the pool itself has no fixed compile-time capacity or
bound check — resolving an id not yet in the store appends exactly one
node unconditionally (the store only reallocates to grow, and allocation
failure is reported via `assert`), a present id appends nothing, and the
capacity-overflow input below leaves 18 nodes in the pool, more than any
of the fixed per-node array capacities; but the successor and predecessor
arrays have fixed capacity 16 and their append performs no bound check:
sixteen declared successors stay in bounds, a seventeenth is written
outside the node's `succs` array (the model still records it, which is
what the unchecked C write corrupts memory with), and no error is
reported. -/
theorem c9_pool_growth_unchecked_capacities_fixed :
    (∀ (pool : List CFGNode) (v : Int), ¬ hasId pool v →
      (get_cfg_node_for_bb pool v).1.length = pool.length + 1) ∧
    (∀ (pool : List CFGNode) (v : Int), hasId pool v →
      (get_cfg_node_for_bb pool v).1.length = pool.length) ∧
    (ingest seventeenDestLines).length = 18 ∧
    (ingest_checked sixteenDestLines).2 = true ∧
    (ingest_checked seventeenDestLines).2 = false ∧
    ((ingest seventeenDestLines).getD 0 default).succs.length = 17 := by
  refine ⟨?_, ?_, by decide, by decide, by decide, by decide⟩
  · intro pool v h
    unfold get_cfg_node_for_bb
    cases hf : pool.findIdx? (fun nd => nd.id == v) with
    | none => simp
    | some i =>
      rcases List.findIdx?_eq_some_iff_getElem.mp hf with ⟨hi, hpi, -⟩
      refine absurd ⟨i, hi, ?_⟩ h
      simp only [List.getD_eq_getElem?_getD, List.getElem?_eq_getElem hi,
        Option.getD_some]
      exact eq_of_beq hpi
  · intro pool v h
    unfold get_cfg_node_for_bb
    cases hf : pool.findIdx? (fun nd => nd.id == v) with
    | some i => rfl
    | none =>
      exfalso
      rcases h with ⟨i, hi, hid⟩
      have hmem : pool.getD i default ∈ pool := by
        rw [List.getD_eq_getElem?_getD, List.getElem?_eq_getElem hi]
        exact List.getElem_mem hi
      have hx := List.findIdx?_eq_none_iff.mp hf (pool.getD i default) hmem
      rw [show ((pool.getD i default).id == v) = true from beq_iff_eq.mpr hid]
        at hx
      cases hx

/-- Witness for C9 (amended): resolving the fresh id 5 against the empty
pool appends one node, and resolving id 0 against the store of `0:` adds
none. -/
theorem c9_pool_growth_unchecked_capacities_fixed_witness :
    (get_cfg_node_for_bb [] (5 : Int)).1.length = ([] : List CFGNode).length + 1 ∧
    (get_cfg_node_for_bb (ingest [["0"]]) 0).1.length = (ingest [["0"]]).length :=
  ⟨c9_pool_growth_unchecked_capacities_fixed.1 [] 5
    (by rintro ⟨i, hi, -⟩; simp at hi),
   c9_pool_growth_unchecked_capacities_fixed.2.1 (ingest [["0"]]) 0
    ⟨0, by decide, by decide⟩⟩

theorem dfs_fold_acc (pool : List CFGNode) (fuel : Nat) (l : List Nat) :
    ∀ (v : List Bool) (a : List Nat),
      l.foldl (fun st s =>
          let r1 := dfs_visit pool fuel st.1 s
          (r1.1, st.2 ++ r1.2)) (v, a) =
        ((l.foldl (fun st s =>
            let r1 := dfs_visit pool fuel st.1 s
            (r1.1, st.2 ++ r1.2)) (v, [])).1,
         a ++ (l.foldl (fun st s =>
            let r1 := dfs_visit pool fuel st.1 s
            (r1.1, st.2 ++ r1.2)) (v, [])).2) := by
  induction l with
  | nil => intro v a; simp
  | cons s rest ih =>
    intro v a
    simp only [List.foldl_cons]
    rw [ih ((dfs_visit pool fuel v s).1) (a ++ (dfs_visit pool fuel v s).2),
      ih ((dfs_visit pool fuel v s).1) ([] ++ (dfs_visit pool fuel v s).2)]
    simp

theorem dfs_fold_mem (pool : List CFGNode) (fuel : Nat) (l : List Nat) :
    ∀ (v : List Bool) (n : Nat),
      n ∈ (l.foldl (fun st s =>
          let r1 := dfs_visit pool fuel st.1 s
          (r1.1, st.2 ++ r1.2)) (v, [])).2 →
      ∃ s ∈ l, ∃ v', n ∈ (dfs_visit pool fuel v' s).2 := by
  induction l with
  | nil => intro v n h; simp at h
  | cons s rest ih =>
    intro v n h
    simp only [List.foldl_cons] at h
    rw [dfs_fold_acc] at h
    simp only [List.nil_append, List.mem_append] at h
    rcases h with h | h
    · exact ⟨s, by simp, v, h⟩
    · rcases ih ((dfs_visit pool fuel v s).1) n h with ⟨s', hs', v', h'⟩
      exact ⟨s', by simp [hs'], v', h'⟩

theorem dfs_visit_reach (pool : List CFGNode) :
    ∀ (fuel : Nat) (visited : List Bool) (b : Nat),
      ∀ n ∈ (dfs_visit pool fuel visited b).2,
        Relation.ReflTransGen (succStep pool) b n := by
  intro fuel
  induction fuel with
  | zero => intro visited b n hn; simp [dfs_visit] at hn
  | succ fuel ih =>
    intro visited b n hn
    rw [dfs_visit] at hn
    by_cases hv : visited.getD b false = true
    · rw [if_pos hv] at hn
      simp at hn
    · rw [if_neg hv] at hn
      simp only [List.mem_append] at hn
      rcases hn with hn | hn
      · rcases dfs_fold_mem pool fuel (pool.getD b default).succs
          (visited.set b true) n hn with ⟨s, hs, v', hn'⟩
        exact Relation.ReflTransGen.head (show succStep pool b s from hs)
          (ih v' s n hn')
      · simp only [List.mem_singleton] at hn
        subst hn
        exact Relation.ReflTransGen.refl

/-- Every node the traversal emits is reachable from the traversal root;
specialized to the entry this says unreachable nodes are never visited. -/
theorem postOrder_reachable (pool : List CFGNode) :
    ∀ n ∈ postOrder pool, ReachableFromEntry pool n := by
  intro n hn
  exact dfs_visit_reach pool (dfs_fuel pool) (List.replicate pool.length false) 0 n hn

theorem dfs_fold_marks (pool : List CFGNode) (fuel : Nat)
    (ihv : ∀ (visited : List Bool) (b : Nat), visited.length = pool.length →
      b < pool.length →
      DfsPost pool visited (dfs_visit pool fuel visited b).1
        (dfs_visit pool fuel visited b).2) :
    ∀ l : List Nat, (∀ s ∈ l, s < pool.length) →
      ∀ v : List Bool, v.length = pool.length →
        DfsPost pool v
          (l.foldl (fun st s =>
            let r1 := dfs_visit pool fuel st.1 s
            (r1.1, st.2 ++ r1.2)) (v, [])).1
          (l.foldl (fun st s =>
            let r1 := dfs_visit pool fuel st.1 s
            (r1.1, st.2 ++ r1.2)) (v, [])).2 := by
  intro l
  induction l with
  | nil =>
    intro _ v _
    exact ⟨rfl, List.nodup_nil, by simp, fun m h => h, by simp, by simp⟩
  | cons s rest ih =>
    intro hl v hv
    have hs : s < pool.length := hl s (by simp)
    have hrest : ∀ x ∈ rest, x < pool.length := fun x hx => hl x (by simp [hx])
    obtain ⟨c_len, c_nodup, c_before, c_mono, c_after, c_lt⟩ := ihv v s hv hs
    obtain ⟨r_len, r_nodup, r_before, r_mono, r_after, r_lt⟩ :=
      ih hrest (dfs_visit pool fuel v s).1 (by rw [c_len, hv])
    simp only [List.foldl_cons]
    rw [dfs_fold_acc]
    simp only [List.nil_append]
    refine ⟨by rw [r_len, c_len], ?_, ?_, ?_, ?_, ?_⟩
    · refine List.Nodup.append c_nodup r_nodup ?_
      intro x hxc hxr
      have h1 := c_after x hxc
      have h2 := r_before x hxr
      rw [h1] at h2
      simp at h2
    · intro n hn
      rcases List.mem_append.mp hn with hn | hn
      · exact c_before n hn
      · have h2 := r_before n hn
        by_cases hvn : v.getD n false = true
        · rw [c_mono n hvn] at h2; simp at h2
        · simpa using hvn
    · intro m hm
      exact r_mono m (c_mono m hm)
    · intro n hn
      rcases List.mem_append.mp hn with hn | hn
      · exact r_mono n (c_after n hn)
      · exact r_after n hn
    · intro n hn
      rcases List.mem_append.mp hn with hn | hn
      · exact c_lt n hn
      · exact r_lt n hn

theorem dfs_visit_marks (pool : List CFGNode)
    (hWF : ∀ i, ∀ s ∈ succsOf pool i, s < pool.length) :
    ∀ (fuel : Nat) (visited : List Bool) (b : Nat),
      visited.length = pool.length → b < pool.length →
      DfsPost pool visited (dfs_visit pool fuel visited b).1
        (dfs_visit pool fuel visited b).2 := by
  intro fuel
  induction fuel with
  | zero =>
    intro visited b _ _
    exact ⟨rfl, List.nodup_nil, by simp [dfs_visit], fun m h => by simpa [dfs_visit] using h,
      by simp [dfs_visit], by simp [dfs_visit]⟩
  | succ fuel ih =>
    intro visited b hlen hb
    rw [dfs_visit]
    by_cases hvis : visited.getD b false = true
    · rw [if_pos hvis]
      exact ⟨rfl, List.nodup_nil, by simp, fun m h => h, by simp, by simp⟩
    · rw [if_neg hvis]
      have hlen' : (visited.set b true).length = pool.length := by
        rw [List.length_set]; exact hlen
      have hsuccs : ∀ s ∈ (pool.getD b default).succs, s < pool.length :=
        fun s hs => hWF b s hs
      obtain ⟨f_len, f_nodup, f_before, f_mono, f_after, f_lt⟩ :=
        dfs_fold_marks pool fuel ih (pool.getD b default).succs hsuccs
          (visited.set b true) hlen'
      have hbmark : (visited.set b true).getD b false = true := by
        rw [List.getD_eq_getElem?_getD,
          List.getElem?_set_self (by rw [hlen]; exact hb)]
        rfl
      have hbnotin : b ∉ (((pool.getD b default).succs).foldl (fun st s =>
          let r1 := dfs_visit pool fuel st.1 s
          (r1.1, st.2 ++ r1.2)) (visited.set b true, [])).2 := by
        intro hmem
        have h1 := f_before b hmem
        rw [hbmark] at h1
        simp at h1
      refine ⟨by rw [f_len]; simp [hlen], ?_, ?_, ?_, ?_, ?_⟩
      · simpa using List.Nodup.append f_nodup (List.nodup_singleton b)
          (by simpa using hbnotin)
      · intro n hn
        rcases List.mem_append.mp hn with hn | hn
        · have h1 := f_before n hn
          by_cases hnb : n = b
          · subst hnb
            exact absurd hn hbnotin
          · rw [List.getD_eq_getElem?_getD] at h1 ⊢
            rwa [List.getElem?_set_ne (Ne.symm hnb)] at h1
        · simp only [List.mem_singleton] at hn
          subst hn
          simpa using hvis
      · intro m hm
        refine f_mono m ?_
        by_cases hmb : m = b
        · subst hmb; exact hbmark
        · rw [List.getD_eq_getElem?_getD, List.getElem?_set_ne (Ne.symm hmb),
            ← List.getD_eq_getElem?_getD]
          exact hm
      · intro n hn
        rcases List.mem_append.mp hn with hn | hn
        · exact f_after n hn
        · simp only [List.mem_singleton] at hn
          subst hn
          exact f_mono n hbmark
      · intro n hn
        rcases List.mem_append.mp hn with hn | hn
        · exact f_lt n hn
        · simp only [List.mem_singleton] at hn
          subst hn
          exact hb

theorem dfs_fold_anchored (pool : List CFGNode) (fuel : Nat)
    (ihv : ∀ (visited : List Bool) (b : Nat) (pre : List Nat) (n : Nat) (suf : List Nat),
      (dfs_visit pool fuel visited b).2.reverse = pre ++ n :: suf →
      n = b ∨ ∃ w ∈ pre, n ∈ succsOf pool w) :
    ∀ (l : List Nat) (v : List Bool) (pre : List Nat) (n : Nat) (suf : List Nat),
      ((l.foldl (fun st s =>
          let r1 := dfs_visit pool fuel st.1 s
          (r1.1, st.2 ++ r1.2)) (v, [])).2).reverse = pre ++ n :: suf →
      n ∈ l ∨ ∃ w ∈ pre, n ∈ succsOf pool w := by
  intro l
  induction l with
  | nil => intro v pre n suf h; simp at h
  | cons s rest ih =>
    intro v pre n suf h
    simp only [List.foldl_cons] at h
    rw [dfs_fold_acc] at h
    simp only [List.nil_append] at h
    rw [List.reverse_append] at h
    rcases List.append_eq_append_iff.mp h with ⟨a', ha1, ha2⟩ | ⟨c', hc1, hc2⟩
    · rcases ihv v s a' n suf ha2 with rfl | ⟨w, hw, hws⟩
      · exact Or.inl (by simp)
      · exact Or.inr ⟨w, by rw [ha1]; simp [hw], hws⟩
    · cases c' with
      | nil =>
        rcases ihv v s [] n suf (by simpa using hc2.symm) with rfl | ⟨w, hw, _⟩
        · exact Or.inl (by simp)
        · simp at hw
      | cons x c'' =>
        simp only [List.cons_append] at hc2
        injection hc2 with he1 he2
        subst he1
        rcases ih (dfs_visit pool fuel v s).1 pre n c'' hc1 with h' | ⟨w, hw, hws⟩
        · exact Or.inl (by simp [h'])
        · exact Or.inr ⟨w, hw, hws⟩

theorem dfs_visit_anchored (pool : List CFGNode) :
    ∀ (fuel : Nat) (visited : List Bool) (b : Nat) (pre : List Nat) (n : Nat)
      (suf : List Nat),
      (dfs_visit pool fuel visited b).2.reverse = pre ++ n :: suf →
      n = b ∨ ∃ w ∈ pre, n ∈ succsOf pool w := by
  intro fuel
  induction fuel with
  | zero => intro visited b pre n suf h; simp [dfs_visit] at h
  | succ fuel ih =>
    intro visited b pre n suf h
    rw [dfs_visit] at h
    by_cases hvis : visited.getD b false = true
    · rw [if_pos hvis] at h
      simp at h
    · rw [if_neg hvis] at h
      simp only [List.reverse_append, List.reverse_cons, List.reverse_nil,
        List.nil_append, List.singleton_append] at h
      cases pre with
      | nil =>
        simp only [List.nil_append] at h
        injection h with h1 _
        exact Or.inl h1.symm
      | cons p pre' =>
        simp only [List.cons_append] at h
        injection h with h1 h2
        rcases dfs_fold_anchored pool fuel ih (pool.getD b default).succs
            (visited.set b true) pre' n suf h2 with hmem | ⟨w, hw, hws⟩
        · refine Or.inr ⟨p, by simp, ?_⟩
          show n ∈ (pool.getD p default).succs
          rw [← h1]
          exact hmem
        · exact Or.inr ⟨w, by simp [hw], hws⟩

/-- C10, counterexample: on a stream declaring no ids (a single comment
line) the pool stays empty, yet the pipeline still runs the solver, whose
entry initialization writes `cfgNodePool[0]` — and `0 < 0` fails, so the
access is not to valid pool storage. -/
theorem c10_counterexample :
    ingest [["!comment"]] = [] ∧ ¬ entryInitValid (ingest [["!comment"]]) := by
  decide

theorem setNode_proj {α : Type} (g : CFGNode → α) (pool : List CFGNode) (i : Nat)
    (f : CFGNode → CFGNode) (hf : ∀ nd, g (f nd) = g nd) (j : Nat) :
    g ((setNode pool i f).getD j default) = g (pool.getD j default) := by
  by_cases hl : j < pool.length
  · by_cases hji : j = i
    · subst hji; rw [setNode_getD_self _ _ _ hl, hf]
    · rw [setNode_getD_ne _ _ _ _ hji]
  · rw [setNode_getD_oob _ _ _ _ (Nat.le_of_not_lt hl)]

theorem get_cfg_off_lt (pool : List CFGNode) (v : Int) :
    (get_cfg_node_for_bb pool v).2 < (get_cfg_node_for_bb pool v).1.length := by
  unfold get_cfg_node_for_bb
  cases hf : pool.findIdx? (fun nd => nd.id == v) with
  | none => simp
  | some i =>
    rcases List.findIdx?_eq_some_iff_getElem.mp hf with ⟨hi, _, _⟩
    simpa using hi

theorem get_cfg_proj {α : Type} (g : CFGNode → α) (pool : List CFGNode) (v : Int)
    (hg : ∀ w : Int, g { id := w } = g default) (j : Nat) :
    g ((get_cfg_node_for_bb pool v).1.getD j default) = g (pool.getD j default) := by
  unfold get_cfg_node_for_bb
  cases hf : pool.findIdx? (fun nd => nd.id == v) with
  | some i => rfl
  | none =>
    by_cases hl : j < pool.length
    · simp only [List.getD_eq_getElem?_getD, List.getElem?_append_left hl]
    · by_cases hj : j = pool.length
      · subst hj
        rw [List.getD_eq_getElem?_getD, List.getElem?_concat_length,
          List.getD_eq_getElem?_getD, List.getElem?_eq_none (Nat.le_refl _)]
        exact hg v
      · have hge : pool.length + 1 ≤ j := by omega
        rw [List.getD_eq_getElem?_getD, List.getElem?_eq_none (by simpa using hge),
          List.getD_eq_getElem?_getD, List.getElem?_eq_none (by omega)]

theorem get_cfg_succsOf (pool : List CFGNode) (v : Int) (j : Nat) :
    succsOf (get_cfg_node_for_bb pool v).1 j = succsOf pool j :=
  get_cfg_proj (fun nd => nd.succs) pool v (fun _ => rfl) j

theorem get_cfg_predsOf (pool : List CFGNode) (v : Int) (j : Nat) :
    predsOf (get_cfg_node_for_bb pool v).1 j = predsOf pool j :=
  get_cfg_proj (fun nd => nd.preds) pool v (fun _ => rfl) j

theorem get_cfg_wf (pool : List CFGNode) (v : Int) (h : PoolWF pool) :
    PoolWF (get_cfg_node_for_bb pool v).1 := by
  obtain ⟨h1, h2, h3⟩ := h
  refine ⟨?_, ?_, ?_⟩
  · intro i s hs
    rw [get_cfg_succsOf] at hs
    exact Nat.lt_of_lt_of_le (h1 i s hs) (get_cfg_length_le pool v)
  · intro i p hp
    rw [get_cfg_predsOf] at hp
    exact Nat.lt_of_lt_of_le (h2 i p hp) (get_cfg_length_le pool v)
  · intro i j hj
    rw [get_cfg_succsOf] at hj
    rw [get_cfg_predsOf]
    exact h3 i j hj

theorem parse_dest_fst (st : List CFGNode × Bool) (srcOff : Nat) (tok : String) :
    (parse_dest st srcOff tok).1 =
      setNode
        (setNode (get_cfg_node_for_bb st.1 (strtol10 tok)).1 srcOff
          (fun nd => { nd with succs :=
            nd.succs ++ [(get_cfg_node_for_bb st.1 (strtol10 tok)).2] }))
        (get_cfg_node_for_bb st.1 (strtol10 tok)).2
        (fun nd => { nd with preds := nd.preds ++ [srcOff] }) := rfl

theorem edge_insert_wf (pool1 : List CFGNode) (srcOff d : Nat)
    (h : PoolWF pool1) (hsrc : srcOff < pool1.length) (hd : d < pool1.length) :
    PoolWF (setNode (setNode pool1 srcOff
      (fun nd => { nd with succs := nd.succs ++ [d] })) d
      (fun nd => { nd with preds := nd.preds ++ [srcOff] })) := by
  obtain ⟨h1, h2, h3⟩ := h
  set f1 : CFGNode → CFGNode := fun nd => { nd with succs := nd.succs ++ [d] } with hf1
  set f2 : CFGNode → CFGNode := fun nd => { nd with preds := nd.preds ++ [srcOff] } with hf2
  set p2 : List CFGNode := setNode pool1 srcOff f1 with hp2
  set p3 : List CFGNode := setNode p2 d f2 with hp3
  have len2 : p2.length = pool1.length := setNode_length _ _ _
  have len3 : p3.length = pool1.length := by
    rw [hp3, setNode_length]; exact len2
  have succs3 : ∀ i, succsOf p3 i = succsOf p2 i := fun i =>
    setNode_proj (fun nd => nd.succs) p2 d f2 (fun _ => rfl) i
  have preds2 : ∀ i, predsOf p2 i = predsOf pool1 i := fun i =>
    setNode_proj (fun nd => nd.preds) pool1 srcOff f1 (fun _ => rfl) i
  have succs2_self : succsOf p2 srcOff = succsOf pool1 srcOff ++ [d] := by
    show ((setNode pool1 srcOff f1).getD srcOff default).succs = _
    rw [setNode_getD_self _ _ _ hsrc]
    rfl
  have succs2_ne : ∀ i, i ≠ srcOff → succsOf p2 i = succsOf pool1 i := by
    intro i hi
    show ((setNode pool1 srcOff f1).getD i default).succs = _
    rw [setNode_getD_ne _ _ _ _ hi]
    rfl
  have preds3_self : predsOf p3 d = predsOf pool1 d ++ [srcOff] := by
    show ((setNode p2 d f2).getD d default).preds = _
    rw [setNode_getD_self _ _ _ (by rw [len2]; exact hd)]
    exact congrArg (fun l => l ++ [srcOff]) (preds2 d)
  have preds3_ne : ∀ j, j ≠ d → predsOf p3 j = predsOf pool1 j := by
    intro j hj
    show ((setNode p2 d f2).getD j default).preds = _
    rw [setNode_getD_ne _ _ _ _ hj]
    exact preds2 j
  refine ⟨?_, ?_, ?_⟩
  · intro i s hs
    rw [len3]
    rw [succs3] at hs
    by_cases hi : i = srcOff
    · subst hi
      rw [succs2_self] at hs
      rcases List.mem_append.mp hs with hs | hs
      · exact h1 i s hs
      · simp only [List.mem_singleton] at hs
        subst hs
        exact hd
    · rw [succs2_ne i hi] at hs
      exact h1 i s hs
  · intro i p hp
    rw [len3]
    by_cases hi : i = d
    · subst hi
      rw [preds3_self] at hp
      rcases List.mem_append.mp hp with hp | hp
      · exact h2 i p hp
      · simp only [List.mem_singleton] at hp
        subst hp
        exact hsrc
    · rw [preds3_ne i hi] at hp
      exact h2 i p hp
  · intro i j hj
    rw [succs3] at hj
    by_cases hi : i = srcOff
    · subst hi
      rw [succs2_self] at hj
      rcases List.mem_append.mp hj with hj | hj
      · have hin := h3 i j hj
        by_cases hjd : j = d
        · subst hjd
          rw [preds3_self]
          exact List.mem_append.mpr (Or.inl hin)
        · rw [preds3_ne j hjd]
          exact hin
      · simp only [List.mem_singleton] at hj
        subst hj
        rw [preds3_self]
        exact List.mem_append.mpr (Or.inr (by simp))
    · rw [succs2_ne i hi] at hj
      have hin := h3 i j hj
      by_cases hjd : j = d
      · subst hjd
        rw [preds3_self]
        exact List.mem_append.mpr (Or.inl hin)
      · rw [preds3_ne j hjd]
        exact hin

theorem parse_dest_wf (st : List CFGNode × Bool) (srcOff : Nat) (tok : String)
    (h : PoolWF st.1) (hsrc : srcOff < st.1.length) :
    PoolWF (parse_dest st srcOff tok).1 ∧
    st.1.length ≤ (parse_dest st srcOff tok).1.length := by
  rw [parse_dest_fst]
  constructor
  · exact edge_insert_wf _ srcOff _ (get_cfg_wf st.1 _ h)
      (Nat.lt_of_lt_of_le hsrc (get_cfg_length_le st.1 _)) (get_cfg_off_lt st.1 _)
  · rw [setNode_length, setNode_length]
    exact get_cfg_length_le st.1 _

theorem parse_dest_fold_wf (rest : List String) :
    ∀ (st : List CFGNode × Bool) (srcOff : Nat), PoolWF st.1 → srcOff < st.1.length →
      PoolWF (rest.foldl (fun s t => parse_dest s srcOff t) st).1 ∧
      st.1.length ≤ (rest.foldl (fun s t => parse_dest s srcOff t) st).1.length := by
  induction rest with
  | nil => intro st srcOff h _; exact ⟨h, Nat.le_refl _⟩
  | cons t ts ih =>
    intro st srcOff h hs
    simp only [List.foldl_cons]
    obtain ⟨hw, hl⟩ := parse_dest_wf st srcOff t h hs
    obtain ⟨hw', hl'⟩ := ih (parse_dest st srcOff t) srcOff hw (Nat.lt_of_lt_of_le hs hl)
    exact ⟨hw', Nat.le_trans hl hl'⟩

theorem parse_line_wf (st : List CFGNode × Bool) (toks : List String)
    (h : PoolWF st.1) : PoolWF (parse_line st toks).1 := by
  cases toks with
  | nil => exact h
  | cons tok rest =>
    by_cases hc : tok.data.head? = some '!'
    · rw [parse_line_skip st (tok :: rest) (Or.inr ⟨tok, rest, rfl, hc⟩)]
      exact h
    · show PoolWF (parse_line st (tok :: rest)).1
      have hred : parse_line st (tok :: rest) =
          rest.foldl (fun s t => parse_dest s (get_cfg_node_for_bb st.1 (strtol10 tok)).2 t)
            ((get_cfg_node_for_bb st.1 (strtol10 tok)).1, st.2) := by
        simp only [parse_line, if_neg hc]
      rw [hred]
      exact (parse_dest_fold_wf rest
        ((get_cfg_node_for_bb st.1 (strtol10 tok)).1, st.2)
        (get_cfg_node_for_bb st.1 (strtol10 tok)).2
        (get_cfg_wf st.1 _ h) (get_cfg_off_lt st.1 _)).1

theorem empty_pool_wf : PoolWF [] := by
  refine ⟨?_, ?_, ?_⟩
  · intro i s hs
    simp [succsOf, List.getD_eq_getElem?_getD] at hs
    cases hs
  · intro i p hp
    simp [predsOf, List.getD_eq_getElem?_getD] at hp
    cases hp
  · intro i j hj
    simp [succsOf, List.getD_eq_getElem?_getD] at hj
    cases hj

theorem parse_fold_wf (lines : List (List String)) :
    ∀ st : List CFGNode × Bool, PoolWF st.1 →
      PoolWF (lines.foldl parse_line st).1 := by
  induction lines with
  | nil => intro st h; exact h
  | cons l ls ih =>
    intro st h
    rw [List.foldl_cons]
    exact ih _ (parse_line_wf st l h)

theorem ingest_wf (lines : List (List String)) : PoolWF (ingest lines) :=
  parse_fold_wf lines ([], true) empty_pool_wf

theorem init_dom_sets_length (pool : List CFGNode) :
    (init_dom_sets pool).length = pool.length := by
  simp [init_dom_sets, setNode]

theorem init_dom_sets_proj {α : Type} (g : CFGNode → α)
    (hg : ∀ (nd : CFGNode) (l : List Nat), g { nd with doms := l } = g nd)
    (pool : List CFGNode) (i : Nat) :
    g ((init_dom_sets pool).getD i default) = g (pool.getD i default) := by
  unfold init_dom_sets
  by_cases hi : i < pool.length
  · have hlen : i < (setNode pool 0 (fun nd => { nd with doms := [0] })).length := by
      rw [setNode_length]; exact hi
    rw [List.getD_eq_getElem?_getD, List.getElem?_mapIdx,
      List.getElem?_eq_getElem hlen]
    have hbase : g ((setNode pool 0 (fun nd => { nd with doms := [0] })).getD i default) =
        g (pool.getD i default) :=
      setNode_proj g pool 0 (fun nd => { nd with doms := [0] }) (fun nd => hg nd [0]) i
    rw [List.getD_eq_getElem?_getD, List.getElem?_eq_getElem hlen] at hbase
    simp only [Option.map_some', Option.getD_some]
    by_cases h1 : 1 ≤ i
    · rw [if_pos h1, hg]
      simpa using hbase
    · rw [if_neg h1]
      simpa using hbase
  · have h2 : pool.length ≤ i := Nat.le_of_not_lt hi
    rw [List.getD_eq_getElem?_getD,
      List.getElem?_eq_none (by simpa [setNode_length] using h2),
      List.getD_eq_getElem?_getD, List.getElem?_eq_none h2]

theorem init_dom_sets_succsOf (pool : List CFGNode) (i : Nat) :
    succsOf (init_dom_sets pool) i = succsOf pool i :=
  init_dom_sets_proj (fun nd => nd.succs) (fun _ _ => rfl) pool i

theorem init_dom_sets_predsOf (pool : List CFGNode) (i : Nat) :
    predsOf (init_dom_sets pool) i = predsOf pool i :=
  init_dom_sets_proj (fun nd => nd.preds) (fun _ _ => rfl) pool i

theorem init_dom_sets_doms_zero (pool : List CFGNode) (h : 0 < pool.length) :
    domsOf (init_dom_sets pool) 0 = [0] := by
  unfold init_dom_sets domsOf
  have hlen : 0 < (setNode pool 0 (fun nd => { nd with doms := [0] })).length := by
    rw [setNode_length]; exact h
  rw [List.getD_eq_getElem?_getD, List.getElem?_mapIdx,
    List.getElem?_eq_getElem hlen]
  simp only [Option.map_some', Option.getD_some, if_neg (by decide : ¬ (1 ≤ 0))]
  have : (setNode pool 0 (fun nd => { nd with doms := [0] })).getD 0 default =
      { pool.getD 0 default with doms := [0] } := setNode_getD_self pool 0 _ h
  rw [List.getD_eq_getElem?_getD, List.getElem?_eq_getElem hlen] at this
  simp only [Option.getD_some] at this
  rw [this]

theorem init_dom_sets_doms_pos (pool : List CFGNode) (i : Nat) (h : 1 ≤ i) :
    domsOf (init_dom_sets pool) i = [] := by
  unfold init_dom_sets domsOf
  by_cases hi : i < pool.length
  · have hlen : i < (setNode pool 0 (fun nd => { nd with doms := [0] })).length := by
      rw [setNode_length]; exact hi
    rw [List.getD_eq_getElem?_getD, List.getElem?_mapIdx,
      List.getElem?_eq_getElem hlen]
    simp [if_pos h]
  · have h2 : pool.length ≤ i := Nat.le_of_not_lt hi
    rw [List.getD_eq_getElem?_getD,
      List.getElem?_eq_none (by simpa [setNode_length] using h2)]
    rfl

theorem rpot_fold_length (n : Nat) (L : List (Nat × Nat)) :
    ∀ slots : List (Option Nat),
      (L.foldl (fun slots kb => slots.set (n - 1 - kb.1) (some kb.2)) slots).length =
        slots.length := by
  induction L with
  | nil => intro slots; rfl
  | cons kb L ih =>
    intro slots
    rw [List.foldl_cons, ih, List.length_set]

theorem rpot_slots_length (n : Nat) (post : List Nat) :
    (rpot_slots n post).length = n := by
  unfold rpot_slots
  rw [rpot_fold_length]
  exact List.length_replicate _ _

theorem rpot_fold_values (n : Nat) (L : List (Nat × Nat)) :
    ∀ (slots : List (Option Nat)) (k v : Nat),
      (L.foldl (fun slots kb => slots.set (n - 1 - kb.1) (some kb.2)) slots).getD k none =
        some v →
      slots.getD k none = some v ∨ ∃ kb ∈ L, kb.2 = v := by
  induction L with
  | nil => intro slots k v h; exact Or.inl h
  | cons kb L ih =>
    intro slots k v h
    rw [List.foldl_cons] at h
    rcases ih _ k v h with h' | ⟨kb', hm, he⟩
    · by_cases hkj : k = n - 1 - kb.1
      · subst hkj
        by_cases hlt : n - 1 - kb.1 < slots.length
        · rw [List.getD_eq_getElem?_getD, List.getElem?_set_self hlt] at h'
          simp only [Option.getD_some] at h'
          exact Or.inr ⟨kb, by simp, by injection h'⟩
        · rw [List.set_eq_of_length_le (Nat.le_of_not_lt hlt)] at h'
          exact Or.inl h'
      · rw [List.getD_eq_getElem?_getD,
          List.getElem?_set_ne (fun he => hkj he.symm)] at h'
        rw [List.getD_eq_getElem?_getD]
        exact Or.inl h'
    · exact Or.inr ⟨kb', by simp [hm], he⟩

theorem rpot_slots_mem (n : Nat) (post : List Nat) (k v : Nat)
    (h : (rpot_slots n post).getD k none = some v) : v ∈ post := by
  unfold rpot_slots at h
  rcases rpot_fold_values n post.enum _ k v h with h' | ⟨kb, hm, he⟩
  · rw [List.getD_eq_getElem?_getD, List.getElem?_replicate] at h'
    by_cases hk : k < n
    · rw [if_pos hk] at h'
      simp at h'
    · rw [if_neg hk] at h'
      simp at h'
  · subst he
    exact List.snd_mem_of_mem_enumFrom hm

theorem rpot_slots_concat (n : Nat) (post : List Nat) (b : Nat) :
    rpot_slots n (post ++ [b]) =
      (rpot_slots n post).set (n - 1 - post.length) (some b) := by
  unfold rpot_slots
  rw [List.enum_append, List.foldl_append]
  simp [List.enumFrom_singleton]

theorem nodup_lt_length_le (post : List Nat) (n : Nat) (hnd : post.Nodup)
    (hlt : ∀ b ∈ post, b < n) : post.length ≤ n := by
  have h1 : post.toFinset ⊆ Finset.range n := by
    intro x hx
    rw [List.mem_toFinset] at hx
    exact Finset.mem_range.mpr (hlt x hx)
  have h2 := Finset.card_le_card h1
  rwa [List.toFinset_card_of_nodup hnd, Finset.card_range] at h2

theorem rpot_slots_getD (n : Nat) (post : List Nat) :
    post.Nodup → (∀ b ∈ post, b < n) →
    ∀ k, k < post.length →
      (rpot_slots n post).getD (n - 1 - k) none = some (post.getD k 0) := by
  induction post using List.reverseRecOn with
  | nil => intro _ _ k hk; simp at hk
  | append_singleton post b ih =>
    intro hnd hlt k hk
    have hnd' : post.Nodup := hnd.of_append_left
    have hlt' : ∀ x ∈ post, x < n := fun x hx => hlt x (by simp [hx])
    have hlen : post.length + 1 ≤ n := by
      have := nodup_lt_length_le (post ++ [b]) n hnd hlt
      simpa using this
    rw [rpot_slots_concat]
    rcases Nat.lt_or_ge k post.length with hk' | hk'
    · have hne : n - 1 - post.length ≠ n - 1 - k := by omega
      rw [List.getD_eq_getElem?_getD, List.getElem?_set_ne hne,
        ← List.getD_eq_getElem?_getD, ih hnd' hlt' k hk']
      rw [List.getD_eq_getElem?_getD, List.getD_eq_getElem?_getD,
        List.getElem?_append_left hk']
    · have hk2 : k = post.length := by
        have : k < post.length + 1 := by simpa using hk
        omega
      subst hk2
      have hlt2 : n - 1 - post.length < (rpot_slots n post).length := by
        rw [rpot_slots_length]
        omega
      rw [List.getD_eq_getElem?_getD, List.getElem?_set_self hlt2,
        List.getD_eq_getElem?_getD, List.getElem?_concat_length]
      rfl

/-- C3, amended: nodes unreachable from the entry are indeed never visited
by the traversal (everything emitted in postorder is reachable) and never
receive a rank (every written `rpot` slot holds a reachable node); but the
fixed-point loop's slot range is not restricted to them — on `0: 1 / 2`
the loop order contains the entry offset 0 itself — and the unreachable
node surfaces with an empty dominator list, the universal-set sentinel
encoding, not a distinct no-data state. -/
theorem c3_unreachable_never_visited_but_not_excluded :
    (∀ (lines : List (List String)) (n : Nat),
      n ∈ postOrder (ingest lines) → ReachableFromEntry (ingest lines) n) ∧
    (∀ (lines : List (List String)) (n k : Nat),
      (rpot_slots (ingest lines).length (postOrder (ingest lines))).getD k none =
        some n → ReachableFromEntry (ingest lines) n) ∧
    0 ∈ loop_order (init_dom_sets (ingest unreachableLines)) ∧
    domsOf (calculate_dominance (ingest unreachableLines)) 2 = [] := by
  refine ⟨?_, ?_, by decide, by decide⟩
  · intro lines n hn
    exact postOrder_reachable (ingest lines) n hn
  · intro lines n k h
    exact postOrder_reachable (ingest lines) n (rpot_slots_mem _ _ k n h)

/-- Witness for C3 (amended) on `0: 1 / 2`: node 1 is emitted and indeed
reachable, the loop order contains the entry, node 2 ends with the
sentinel. -/
theorem c3_unreachable_never_visited_but_not_excluded_witness :
    ReachableFromEntry (ingest unreachableLines) 1 ∧
    0 ∈ loop_order (init_dom_sets (ingest unreachableLines)) ∧
    domsOf (calculate_dominance (ingest unreachableLines)) 2 = [] :=
  ⟨c3_unreachable_never_visited_but_not_excluded.1 unreachableLines 1 (by decide),
   c3_unreachable_never_visited_but_not_excluded.2.2.1,
   c3_unreachable_never_visited_but_not_excluded.2.2.2⟩

/-- C4, amended: the traversal visits each node at most once (the postorder
sequence has no duplicates), and the node finishing at postorder counter
`k` is stored at rank `currentNumCFGNodes - 1 - k` — the TOTAL node count,
not the reachable count the specification states; on `0: 1 / 2` the two
formulas place the ranks differently. -/
theorem c4_traversal_rank_uses_total_count :
    (∀ lines : List (List String), (postOrder (ingest lines)).Nodup) ∧
    (∀ (n : Nat) (post : List Nat), post.Nodup → (∀ b ∈ post, b < n) →
      ∀ k, k < post.length →
        (rpot_slots n post).getD (n - 1 - k) none = some (post.getD k 0)) ∧
    rpot_slots (ingest unreachableLines).length (postOrder (ingest unreachableLines)) ≠
      rpot_slots_spec (ingest unreachableLines).length (postOrder (ingest unreachableLines)) := by
  refine ⟨?_, ?_, by decide⟩
  · intro lines
    by_cases hnil : ingest lines = []
    · rw [hnil]
      decide
    · have hlen : 0 < (ingest lines).length := List.length_pos.mpr hnil
      have hWF : ∀ i, ∀ s ∈ succsOf (ingest lines) i, s < (ingest lines).length :=
        (ingest_wf lines).1
      exact (dfs_visit_marks (ingest lines) hWF (dfs_fuel (ingest lines))
        (List.replicate (ingest lines).length false) 0 (by simp) hlen).2.1
  · exact fun n post h1 h2 k hk => rpot_slots_getD n post h1 h2 k hk

/-- Witness for C4 (amended): the traversal of `0: 1 / 2` emits `[1, 0]`
without duplicates, and with total count 3 the node finishing at counter 0
lands in slot `3 - 1 - 0`. -/
theorem c4_traversal_rank_uses_total_count_witness :
    (postOrder (ingest unreachableLines)).Nodup ∧
    (rpot_slots 3 [1, 0]).getD (3 - 1 - 0) none = some ([1, 0].getD 0 0) :=
  ⟨c4_traversal_rank_uses_total_count.1 unreachableLines,
   c4_traversal_rank_uses_total_count.2.1 3 [1, 0] (by decide) (by decide) 0 (by decide)⟩

theorem SetOk_nil (N : Nat) : SetOk N [] :=
  ⟨List.nodup_nil, by simp, fun h => absurd rfl h⟩

theorem denoteD_subset (N : Nat) (l : List Nat) (h : ∀ d ∈ l, d < N) :
    denoteD N l ⊆ Finset.range N := by
  unfold denoteD
  by_cases hl : l = []
  · rw [if_pos hl]
  · rw [if_neg hl]
    intro x hx
    rw [List.mem_toFinset] at hx
    exact Finset.mem_range.mpr (h x hx)

theorem filter_eq_of_nodup (b : List Nat) (d : Nat) (hb : b.Nodup) :
    b.filter (fun s => decide (s = d)) = if d ∈ b then [d] else [] := by
  induction b with
  | nil => simp
  | cons x b ih =>
    rw [List.nodup_cons] at hb
    obtain ⟨hx, hb'⟩ := hb
    by_cases hxd : x = d
    · subst hxd
      rw [List.filter_cons_of_pos (by simp), ih hb', if_neg hx,
        if_pos (List.mem_cons_self x b)]
    · rw [List.filter_cons_of_neg (by simpa using hxd), ih hb']
      by_cases hdb : d ∈ b
      · rw [if_pos hdb, if_pos (by simp [hdb])]
      · rw [if_neg hdb, if_neg (by
          intro hmem
          rcases List.mem_cons.mp hmem with h' | h'
          · exact hxd h'.symm
          · exact hdb h')]

theorem flatMap_filter_of_nodup (b : List Nat) (hb : b.Nodup) (a : List Nat) :
    a.flatMap (fun d => (b.filter (fun s => decide (s = d))).map (fun _ => d)) =
      a.filter (fun d => decide (d ∈ b)) := by
  induction a with
  | nil => rfl
  | cons d a ih =>
    rw [List.flatMap_cons, ih, filter_eq_of_nodup b d hb]
    by_cases hdb : d ∈ b
    · rw [if_pos hdb, List.filter_cons_of_pos (by simpa using hdb)]
      simp
    · rw [if_neg hdb, List.filter_cons_of_neg (by simpa using hdb)]
      simp

theorem intersect_concrete (a b : List Nat) (ha : a ≠ []) (hb : b ≠ [])
    (hnd : b.Nodup) :
    intersect_dom_sets a b = a.filter (fun d => decide (d ∈ b)) := by
  have h1 : ¬ a.length = 0 := by simpa [List.length_eq_zero] using ha
  have h2 : 0 < b.length := List.length_pos.mpr hb
  unfold intersect_dom_sets
  rw [if_neg h1, if_pos h2]
  exact flatMap_filter_of_nodup b hnd a

theorem intersect_SetOk (N : Nat) (a b : List Nat) (ha : SetOk N a)
    (hb : SetOk N b) :
    SetOk N (intersect_dom_sets a b) ∧
    denoteD N (intersect_dom_sets a b) = denoteD N a ∩ denoteD N b := by
  obtain ⟨hand, habd, haz⟩ := ha
  obtain ⟨hbnd, hbbd, hbz⟩ := hb
  rcases eq_or_ne a [] with rfl | hane
  · rw [intersect_dom_sets_nil_left]
    refine ⟨⟨hbnd, hbbd, hbz⟩, ?_⟩
    show denoteD N b = denoteD N [] ∩ denoteD N b
    rw [show denoteD N [] = Finset.range N from if_pos rfl]
    exact (Finset.inter_eq_right.mpr (denoteD_subset N b hbbd)).symm
  · rcases eq_or_ne b [] with rfl | hbne
    · rw [intersect_dom_sets_nil_right a hane]
      refine ⟨⟨hand, habd, haz⟩, ?_⟩
      show denoteD N a = denoteD N a ∩ denoteD N []
      rw [show denoteD N [] = Finset.range N from if_pos rfl]
      exact (Finset.inter_eq_left.mpr (denoteD_subset N a habd)).symm
    · rw [intersect_concrete a b hane hbne hbnd]
      have h0a := haz hane
      have h0b := hbz hbne
      have h0r : 0 ∈ a.filter (fun d => decide (d ∈ b)) :=
        List.mem_filter.mpr ⟨h0a, by simpa using h0b⟩
      have hrne : a.filter (fun d => decide (d ∈ b)) ≠ [] :=
        List.ne_nil_of_mem h0r
      refine ⟨⟨hand.filter _, ?_, fun _ => h0r⟩, ?_⟩
      · intro d hd
        exact habd d (List.mem_filter.mp hd).1
      · unfold denoteD
        rw [if_neg hrne, if_neg hane, if_neg hbne]
        ext x
        simp [List.mem_filter, List.mem_toFinset]

theorem fold_inter_SetOk (N : Nat) (P : List CFGNode)
    (hP : ∀ i, SetOk N (domsOf P i)) (ps : List Nat) :
    ∀ acc, SetOk N acc →
      SetOk N (ps.foldl (fun acc p => intersect_dom_sets acc (domsOf P p)) acc) := by
  induction ps with
  | nil => intro acc h; exact h
  | cons p ps ih =>
    intro acc h
    rw [List.foldl_cons]
    exact ih _ (intersect_SetOk N acc (domsOf P p) h (hP p)).1

theorem fold_inter_keeps_zero (N : Nat) (P : List CFGNode)
    (hP : ∀ i, SetOk N (domsOf P i)) (ps : List Nat) :
    ∀ acc, SetOk N acc → 0 ∈ acc →
      0 ∈ ps.foldl (fun acc p => intersect_dom_sets acc (domsOf P p)) acc := by
  induction ps with
  | nil => intro acc _ h0; exact h0
  | cons p ps ih =>
    intro acc hok h0
    rw [List.foldl_cons]
    have hane : acc ≠ [] := List.ne_nil_of_mem h0
    have h0' : 0 ∈ intersect_dom_sets acc (domsOf P p) := by
      rcases eq_or_ne (domsOf P p) [] with hp | hp
      · rw [hp, intersect_dom_sets_nil_right acc hane]
        exact h0
      · exact (intersect_dom_sets_mem acc (domsOf P p) hane hp 0).mpr
          ⟨h0, (hP p).2.2 hp⟩
    exact ih _ (intersect_SetOk N acc (domsOf P p) hok (hP p)).1 h0'

theorem fold_inter_gains_zero (N : Nat) (P : List CFGNode)
    (hP : ∀ i, SetOk N (domsOf P i)) (ps : List Nat) :
    ∀ (w : Nat), w ∈ ps → 0 ∈ domsOf P w →
      ∀ acc, SetOk N acc →
        0 ∈ ps.foldl (fun acc p => intersect_dom_sets acc (domsOf P p)) acc := by
  induction ps with
  | nil => intro w hw; simp at hw
  | cons p ps ih =>
    intro w hw h0w acc hok
    rw [List.foldl_cons]
    rcases List.mem_cons.mp hw with rfl | hw'
    · have hpne : domsOf P w ≠ [] := List.ne_nil_of_mem h0w
      have h0' : 0 ∈ intersect_dom_sets acc (domsOf P w) := by
        rcases eq_or_ne acc [] with rfl | hane
        · rw [intersect_dom_sets_nil_left]
          exact h0w
        · exact (intersect_dom_sets_mem acc (domsOf P w) hane hpne 0).mpr
            ⟨hok.2.2 hane, h0w⟩
      exact fold_inter_keeps_zero N P hP ps _
        (intersect_SetOk N acc (domsOf P w) hok (hP w)).1 h0'
    · exact ih w hw' h0w _ (intersect_SetOk N acc (domsOf P p) hok (hP p)).1

theorem fold_inter_mono (N : Nat) (S T : List CFGNode)
    (hS : ∀ i, SetOk N (domsOf S i)) (hT : ∀ i, SetOk N (domsOf T i))
    (hLe : DomsLe N S T) (ps : List Nat) :
    ∀ accS accT, SetOk N accS → SetOk N accT →
      denoteD N accS ⊆ denoteD N accT →
      denoteD N (ps.foldl (fun acc p => intersect_dom_sets acc (domsOf S p)) accS) ⊆
      denoteD N (ps.foldl (fun acc p => intersect_dom_sets acc (domsOf T p)) accT) := by
  induction ps with
  | nil => intro accS accT _ _ h; exact h
  | cons p ps ih =>
    intro accS accT hokS hokT hle
    rw [List.foldl_cons, List.foldl_cons]
    refine ih _ _ (intersect_SetOk N accS (domsOf S p) hokS (hS p)).1
      (intersect_SetOk N accT (domsOf T p) hokT (hT p)).1 ?_
    rw [(intersect_SetOk N accS (domsOf S p) hokS (hS p)).2,
      (intersect_SetOk N accT (domsOf T p) hokT (hT p)).2]
    exact Finset.inter_subset_inter hle (hLe p)

theorem update_dom_set_eq (P : List CFGNode) (n : Nat) :
    update_dom_set P n =
      (setNode P n (fun nd => { nd with doms := dom_candidate P n }),
       (domsOf P n).length != (dom_candidate P n).length) := rfl

theorem update_dom_set_length (P : List CFGNode) (n : Nat) :
    (update_dom_set P n).1.length = P.length := by
  show (setNode P n (fun nd => { nd with doms := dom_candidate P n })).length = P.length
  exact setNode_length _ _ _

theorem update_dom_set_predsOf (P : List CFGNode) (n i : Nat) :
    predsOf (update_dom_set P n).1 i = predsOf P i := by
  show ((setNode P n (fun nd => { nd with doms := dom_candidate P n })).getD
    i default).preds = (P.getD i default).preds
  exact setNode_proj (fun nd => nd.preds) P n
    (fun nd => { nd with doms := dom_candidate P n }) (fun _ => rfl) i

theorem update_dom_set_succsOf (P : List CFGNode) (n i : Nat) :
    succsOf (update_dom_set P n).1 i = succsOf P i := by
  show ((setNode P n (fun nd => { nd with doms := dom_candidate P n })).getD
    i default).succs = (P.getD i default).succs
  exact setNode_proj (fun nd => nd.succs) P n
    (fun nd => { nd with doms := dom_candidate P n }) (fun _ => rfl) i

theorem update_dom_set_domsOf_ne (P : List CFGNode) (n i : Nat) (h : i ≠ n) :
    domsOf (update_dom_set P n).1 i = domsOf P i := by
  show ((setNode P n (fun nd => { nd with doms := dom_candidate P n })).getD
    i default).doms = (P.getD i default).doms
  rw [setNode_getD_ne _ _ _ _ h]

theorem update_dom_set_domsOf_self (P : List CFGNode) (n : Nat)
    (h : n < P.length) :
    domsOf (update_dom_set P n).1 n = dom_candidate P n := by
  show ((setNode P n (fun nd => { nd with doms := dom_candidate P n })).getD
    n default).doms = dom_candidate P n
  rw [setNode_getD_self _ _ _ h]

theorem dom_candidate_props (N : Nat) (P : List CFGNode) (n : Nat)
    (hP : ∀ i, SetOk N (domsOf P i)) (hzero : domsOf P 0 = [0]) (hn : n < N)
    (hanchor : ∃ w ∈ predsOf P n, w = 0 ∨ 0 ∈ domsOf P w) :
    SetOk N (dom_candidate P n) ∧ 0 ∈ dom_candidate P n ∧
      n ∈ dom_candidate P n := by
  obtain ⟨w, hwmem, hwz⟩ := hanchor
  have h0w : 0 ∈ domsOf P w := by
    rcases hwz with rfl | h
    · rw [hzero]; exact List.mem_singleton_self 0
    · exact h
  have htz : 0 ∈ (predsOf P n).foldl
      (fun acc p => intersect_dom_sets acc (domsOf P p)) [] :=
    fold_inter_gains_zero N P hP (predsOf P n) w hwmem h0w [] (SetOk_nil N)
  have htok : SetOk N ((predsOf P n).foldl
      (fun acc p => intersect_dom_sets acc (domsOf P p)) []) :=
    fold_inter_SetOk N P hP (predsOf P n) [] (SetOk_nil N)
  unfold dom_candidate
  by_cases hmem : n ∈ (predsOf P n).foldl
      (fun acc p => intersect_dom_sets acc (domsOf P p)) []
  · rw [if_pos hmem]
    exact ⟨htok, htz, hmem⟩
  · rw [if_neg hmem]
    obtain ⟨hnd, hbd, _⟩ := htok
    refine ⟨⟨?_, ?_, ?_⟩, ?_, ?_⟩
    · simpa using List.Nodup.append hnd (List.nodup_singleton n)
        (by simpa using hmem)
    · intro d hd
      rcases List.mem_append.mp hd with hd | hd
      · exact hbd d hd
      · simp only [List.mem_singleton] at hd
        subst hd
        exact hn
    · intro _
      exact List.mem_append.mpr (Or.inl htz)
    · exact List.mem_append.mpr (Or.inl htz)
    · exact List.mem_append.mpr (Or.inr (by simp))

theorem cand_toFinset (temp : List Nat) (n : Nat) :
    (if n ∈ temp then temp else temp ++ [n]).toFinset =
      temp.toFinset ∪ {n} := by
  by_cases hmem : n ∈ temp
  · rw [if_pos hmem]
    exact (Finset.union_eq_left.mpr
      (Finset.singleton_subset_iff.mpr (List.mem_toFinset.mpr hmem))).symm
  · rw [if_neg hmem, List.toFinset_append]
    rfl

theorem dom_candidate_mono (N : Nat) (S T : List CFGNode) (n : Nat)
    (hS : ∀ i, SetOk N (domsOf S i)) (hT : ∀ i, SetOk N (domsOf T i))
    (hzS : domsOf S 0 = [0]) (hzT : domsOf T 0 = [0]) (hn : n < N)
    (hLe : DomsLe N S T) (hpreds : predsOf S n = predsOf T n)
    (hanchor : ∃ w ∈ predsOf S n, w = 0 ∨ (0 ∈ domsOf S w ∧ 0 ∈ domsOf T w)) :
    denoteD N (dom_candidate S n) ⊆ denoteD N (dom_candidate T n) := by
  obtain ⟨w, hwmem, hwz⟩ := hanchor
  have hancS : ∃ w ∈ predsOf S n, w = 0 ∨ 0 ∈ domsOf S w :=
    ⟨w, hwmem, by tauto⟩
  have hancT : ∃ w ∈ predsOf T n, w = 0 ∨ 0 ∈ domsOf T w :=
    ⟨w, hpreds ▸ hwmem, by tauto⟩
  have h0wS : 0 ∈ domsOf S w := by
    rcases hwz with rfl | h
    · rw [hzS]; exact List.mem_singleton_self 0
    · exact h.1
  have h0wT : 0 ∈ domsOf T w := by
    rcases hwz with rfl | h
    · rw [hzT]; exact List.mem_singleton_self 0
    · exact h.2
  have htzS : 0 ∈ (predsOf S n).foldl
      (fun acc p => intersect_dom_sets acc (domsOf S p)) [] :=
    fold_inter_gains_zero N S hS (predsOf S n) w hwmem h0wS [] (SetOk_nil N)
  have htzT : 0 ∈ (predsOf T n).foldl
      (fun acc p => intersect_dom_sets acc (domsOf T p)) [] :=
    fold_inter_gains_zero N T hT (predsOf T n) w (hpreds ▸ hwmem) h0wT []
      (SetOk_nil N)
  have hmono : denoteD N ((predsOf S n).foldl
      (fun acc p => intersect_dom_sets acc (domsOf S p)) []) ⊆
      denoteD N ((predsOf T n).foldl
        (fun acc p => intersect_dom_sets acc (domsOf T p)) []) := by
    rw [hpreds]
    exact fold_inter_mono N S T hS hT hLe (predsOf T n) [] [] (SetOk_nil N)
      (SetOk_nil N) (subset_refl _)
  have htneS : (predsOf S n).foldl
      (fun acc p => intersect_dom_sets acc (domsOf S p)) [] ≠ [] :=
    List.ne_nil_of_mem htzS
  have htneT : (predsOf T n).foldl
      (fun acc p => intersect_dom_sets acc (domsOf T p)) [] ≠ [] :=
    List.ne_nil_of_mem htzT
  have hsub : ((predsOf S n).foldl
      (fun acc p => intersect_dom_sets acc (domsOf S p)) []).toFinset ⊆
      ((predsOf T n).foldl
        (fun acc p => intersect_dom_sets acc (domsOf T p)) []).toFinset := by
    unfold denoteD at hmono
    rwa [if_neg htneS, if_neg htneT] at hmono
  obtain ⟨-, h0S, -⟩ := dom_candidate_props N S n hS hzS hn hancS
  obtain ⟨-, h0T, -⟩ := dom_candidate_props N T n hT hzT hn hancT
  have hcneS : dom_candidate S n ≠ [] := List.ne_nil_of_mem h0S
  have hcneT : dom_candidate T n ≠ [] := List.ne_nil_of_mem h0T
  unfold denoteD
  rw [if_neg hcneS, if_neg hcneT]
  show (dom_candidate S n).toFinset ⊆ (dom_candidate T n).toFinset
  unfold dom_candidate
  rw [cand_toFinset, cand_toFinset]
  exact Finset.union_subset_union hsub (subset_refl _)

theorem run_pass_fst (ord : List Nat) :
    ∀ (P : List CFGNode) (b : Bool),
      (ord.foldl (fun st off =>
        let r := update_dom_set st.1 off
        (r.1, st.2 || r.2)) (P, b)).1 =
      ord.foldl (fun p off => (update_dom_set p off).1) P := by
  induction ord with
  | nil => intro P b; rfl
  | cons n rest ih =>
    intro P b
    rw [List.foldl_cons, List.foldl_cons]
    exact ih _ _

theorem run_pass_pool (ord : List Nat) (P : List CFGNode) :
    (run_pass ord P).1 = ord.foldl (fun p off => (update_dom_set p off).1) P :=
  run_pass_fst ord P false

theorem fold_upd_length (l : List Nat) :
    ∀ P : List CFGNode,
      (l.foldl (fun p off => (update_dom_set p off).1) P).length = P.length := by
  induction l with
  | nil => intro P; rfl
  | cons n rest ih =>
    intro P
    rw [List.foldl_cons, ih, update_dom_set_length]

theorem fold_upd_predsOf (l : List Nat) :
    ∀ (P : List CFGNode) (i : Nat),
      predsOf (l.foldl (fun p off => (update_dom_set p off).1) P) i =
        predsOf P i := by
  induction l with
  | nil => intro P i; rfl
  | cons n rest ih =>
    intro P i
    rw [List.foldl_cons, ih, update_dom_set_predsOf]

theorem fold_upd_domsOf_not_mem (l : List Nat) :
    ∀ (P : List CFGNode) (i : Nat), i ∉ l →
      domsOf (l.foldl (fun p off => (update_dom_set p off).1) P) i =
        domsOf P i := by
  induction l with
  | nil => intro P i _; rfl
  | cons n rest ih =>
    intro P i hi
    rw [List.foldl_cons, ih _ i (fun h => hi (by simp [h])),
      update_dom_set_domsOf_ne _ _ _ (fun h => hi (by simp [h]))]

theorem flag_split (ord : List Nat) :
    ∀ (P : List CFGNode) (b : Bool),
      (ord.foldl (fun st off =>
        let r := update_dom_set st.1 off
        (r.1, st.2 || r.2)) (P, b)).2 = true →
      b = true ∨ ∃ pre n suf, ord = pre ++ n :: suf ∧
        (update_dom_set
          (pre.foldl (fun p off => (update_dom_set p off).1) P) n).2 = true := by
  induction ord with
  | nil => intro P b h; exact Or.inl h
  | cons n rest ih =>
    intro P b h
    rw [List.foldl_cons] at h
    rcases ih _ _ h with h' | ⟨pre, m, suf, hdec, hflag⟩
    · rcases Bool.or_eq_true_iff.mp h' with hb | hf
      · exact Or.inl hb
      · exact Or.inr ⟨[], n, rest, rfl, hf⟩
    · refine Or.inr ⟨n :: pre, m, suf, by rw [hdec]; rfl, ?_⟩
      rw [List.foldl_cons]
      exact hflag

theorem domMu_le (N : Nat) (old new : List Nat) (hnodup : new.Nodup)
    (hbound : ∀ d ∈ new, d < N) (hne : new ≠ [])
    (hle : denoteD N new ⊆ denoteD N old) : domMu N new ≤ domMu N old := by
  unfold domMu
  rw [if_neg hne]
  by_cases hold : old = []
  · rw [if_pos hold]
    have := nodup_lt_length_le new N hnodup hbound
    omega
  · rw [if_neg hold]
    have h1 : new.toFinset ⊆ old.toFinset := by
      unfold denoteD at hle
      rwa [if_neg hne, if_neg hold] at hle
    have h2 := Finset.card_le_card h1
    rw [List.toFinset_card_of_nodup hnodup] at h2
    exact Nat.le_trans h2 (List.toFinset_card_le old)

theorem domMu_lt (N : Nat) (old new : List Nat) (hnodup : new.Nodup)
    (hbound : ∀ d ∈ new, d < N) (hne : new ≠ [])
    (hle : denoteD N new ⊆ denoteD N old)
    (hlen : new.length ≠ old.length) : domMu N new < domMu N old := by
  unfold domMu
  rw [if_neg hne]
  by_cases hold : old = []
  · rw [if_pos hold]
    have := nodup_lt_length_le new N hnodup hbound
    omega
  · rw [if_neg hold]
    have h1 : new.toFinset ⊆ old.toFinset := by
      unfold denoteD at hle
      rwa [if_neg hne, if_neg hold] at hle
    have h2 := Finset.card_le_card h1
    rw [List.toFinset_card_of_nodup hnodup] at h2
    have h3 := Nat.le_trans h2 (List.toFinset_card_le old)
    omega

theorem map_sum_le (l : List Nat) (f g : Nat → Nat) (h : ∀ x ∈ l, f x ≤ g x) :
    (l.map f).sum ≤ (l.map g).sum := by
  induction l with
  | nil => exact Nat.le_refl _
  | cons x l ih =>
    rw [List.map_cons, List.map_cons, List.sum_cons, List.sum_cons]
    exact Nat.add_le_add (h x (by simp)) (ih (fun y hy => h y (by simp [hy])))

theorem map_sum_lt (pre suf : List Nat) (n : Nat) (f g : Nat → Nat)
    (hle : ∀ x ∈ pre ++ n :: suf, f x ≤ g x) (hlt : f n < g n) :
    ((pre ++ n :: suf).map f).sum < ((pre ++ n :: suf).map g).sum := by
  rw [List.map_append, List.sum_append, List.map_cons, List.sum_cons,
    List.map_append, List.sum_append, List.map_cons, List.sum_cons]
  have h1 := map_sum_le pre f g (fun x hx => hle x (by simp [hx]))
  have h2 := map_sum_le suf f g (fun x hx => hle x (by simp [hx]))
  omega

theorem pass2_induct (N : Nat) (l : List Nat) :
    ∀ (done : List Nat) (S T : List CFGNode),
      S.length = N → T.length = N →
      (∀ i, predsOf S i = predsOf T i) →
      DomInv N S → DomInv N T → DomsLe N S T →
      (∀ pre n suf, l = pre ++ n :: suf →
        n ≠ 0 ∧ n < N ∧ ∃ w ∈ predsOf S n, w = 0 ∨ w ∈ done ++ pre) →
      (∀ w ∈ done, 0 ∈ domsOf S w ∧ 0 ∈ domsOf T w) →
      DomInv N (l.foldl (fun p off => (update_dom_set p off).1) S) ∧
      DomInv N (l.foldl (fun p off => (update_dom_set p off).1) T) ∧
      DomsLe N (l.foldl (fun p off => (update_dom_set p off).1) S)
               (l.foldl (fun p off => (update_dom_set p off).1) T) ∧
      (∀ w ∈ done ++ l,
        0 ∈ domsOf (l.foldl (fun p off => (update_dom_set p off).1) S) w ∧
        0 ∈ domsOf (l.foldl (fun p off => (update_dom_set p off).1) T) w) := by
  induction l with
  | nil =>
    intro done S T hSl hTl hpr hIS hIT hLe hanc hdone
    refine ⟨hIS, hIT, hLe, ?_⟩
    simpa using hdone
  | cons n rest ih =>
    intro done S T hSl hTl hpr hIS hIT hLe hanc hdone
    obtain ⟨hn0, hnN, w, hwmem, hwz⟩ := hanc [] n rest rfl
    have hwz' : w = 0 ∨ w ∈ done := by simpa using hwz
    rw [List.foldl_cons, List.foldl_cons]
    have hancS : ∃ v ∈ predsOf S n, v = 0 ∨ 0 ∈ domsOf S v := by
      refine ⟨w, hwmem, ?_⟩
      rcases hwz' with rfl | hd
      · exact Or.inl rfl
      · exact Or.inr (hdone w hd).1
    have hancT : ∃ v ∈ predsOf T n, v = 0 ∨ 0 ∈ domsOf T v := by
      refine ⟨w, (hpr n) ▸ hwmem, ?_⟩
      rcases hwz' with rfl | hd
      · exact Or.inl rfl
      · exact Or.inr (hdone w hd).2
    have hancST : ∃ v ∈ predsOf S n, v = 0 ∨ (0 ∈ domsOf S v ∧ 0 ∈ domsOf T v) := by
      refine ⟨w, hwmem, ?_⟩
      rcases hwz' with rfl | hd
      · exact Or.inl rfl
      · exact Or.inr ⟨(hdone w hd).1, (hdone w hd).2⟩
    obtain ⟨hokS, h0S, hnSmem⟩ := dom_candidate_props N S n hIS.2 hIS.1 hnN hancS
    obtain ⟨hokT, h0T, hnTmem⟩ := dom_candidate_props N T n hIT.2 hIT.1 hnN hancT
    have hnS : n < S.length := by rw [hSl]; exact hnN
    have hnT : n < T.length := by rw [hTl]; exact hnN
    have hdS : domsOf (update_dom_set S n).1 n = dom_candidate S n :=
      update_dom_set_domsOf_self S n hnS
    have hdT : domsOf (update_dom_set T n).1 n = dom_candidate T n :=
      update_dom_set_domsOf_self T n hnT
    have hIS1 : DomInv N (update_dom_set S n).1 := by
      constructor
      · rw [update_dom_set_domsOf_ne S n 0 (Ne.symm hn0)]
        exact hIS.1
      · intro i
        by_cases hin : i = n
        · subst hin
          rw [hdS]
          exact hokS
        · rw [update_dom_set_domsOf_ne S n i hin]
          exact hIS.2 i
    have hIT1 : DomInv N (update_dom_set T n).1 := by
      constructor
      · rw [update_dom_set_domsOf_ne T n 0 (Ne.symm hn0)]
        exact hIT.1
      · intro i
        by_cases hin : i = n
        · subst hin
          rw [hdT]
          exact hokT
        · rw [update_dom_set_domsOf_ne T n i hin]
          exact hIT.2 i
    have hLe1 : DomsLe N (update_dom_set S n).1 (update_dom_set T n).1 := by
      intro i
      by_cases hin : i = n
      · subst hin
        rw [hdS, hdT]
        exact dom_candidate_mono N S T i hIS.2 hIT.2 hIS.1 hIT.1 hnN hLe
          (hpr i) hancST
      · rw [update_dom_set_domsOf_ne S n i hin,
          update_dom_set_domsOf_ne T n i hin]
        exact hLe i
    have hdone1 : ∀ v ∈ done ++ [n],
        0 ∈ domsOf (update_dom_set S n).1 v ∧
        0 ∈ domsOf (update_dom_set T n).1 v := by
      intro v hv
      rcases List.mem_append.mp hv with hv | hv
      · by_cases hvn : v = n
        · subst hvn
          exact ⟨by rw [hdS]; exact h0S, by rw [hdT]; exact h0T⟩
        · rw [update_dom_set_domsOf_ne S n v hvn,
            update_dom_set_domsOf_ne T n v hvn]
          exact hdone v hv
      · simp only [List.mem_singleton] at hv
        subst hv
        exact ⟨by rw [hdS]; exact h0S, by rw [hdT]; exact h0T⟩
    have hanc1 : ∀ pre m suf, rest = pre ++ m :: suf →
        m ≠ 0 ∧ m < N ∧ ∃ v ∈ predsOf (update_dom_set S n).1 m,
          v = 0 ∨ v ∈ (done ++ [n]) ++ pre := by
      intro pre m suf hdec
      obtain ⟨hm0, hmN, v, hvmem, hvz⟩ := hanc (n :: pre) m suf (by rw [hdec]; rfl)
      refine ⟨hm0, hmN, v, by rw [update_dom_set_predsOf]; exact hvmem, ?_⟩
      rcases hvz with rfl | hv
      · exact Or.inl rfl
      · right
        rw [List.append_assoc]
        simpa using hv
    have hS1l : (update_dom_set S n).1.length = N := by
      rw [update_dom_set_length, hSl]
    have hT1l : (update_dom_set T n).1.length = N := by
      rw [update_dom_set_length, hTl]
    have hpr1 : ∀ i, predsOf (update_dom_set S n).1 i =
        predsOf (update_dom_set T n).1 i := by
      intro i
      rw [update_dom_set_predsOf, update_dom_set_predsOf]
      exact hpr i
    obtain ⟨rIS, rIT, rLe, rdone⟩ := ih (done ++ [n]) (update_dom_set S n).1
      (update_dom_set T n).1 hS1l hT1l hpr1 hIS1 hIT1 hLe1 hanc1 hdone1
    refine ⟨rIS, rIT, rLe, ?_⟩
    intro v hv
    apply rdone
    rw [List.append_assoc]
    simpa using hv

theorem pass_measure_lt (N : Nat) (ord : List Nat) (S S' : List CFGNode)
    (hS'eq : S' = ord.foldl (fun p off => (update_dom_set p off).1) S)
    (hnd : ord.Nodup) (hbound : ∀ m ∈ ord, m < N) (hSl : S.length = N)
    (hInvS' : DomInv N S') (hLe : DomsLe N S' S)
    (hne : ∀ m ∈ ord, domsOf S' m ≠ [])
    (hflag : (run_pass ord S).2 = true) :
    (ord.map (fun m => domMu N (domsOf S' m))).sum <
    (ord.map (fun m => domMu N (domsOf S m))).sum := by
  subst hS'eq
  rcases flag_split ord S false hflag with h' | ⟨pre, n, suf, hdec, hf⟩
  · cases h'
  · subst hdec
    rw [List.nodup_append] at hnd
    obtain ⟨hndpre, hndmid, hdisj⟩ := hnd
    have hnpre : n ∉ pre := fun h => hdisj h (by simp)
    have hnsuf : n ∉ suf := by
      rw [List.nodup_cons] at hndmid
      exact hndmid.1
    have hmidd : domsOf (pre.foldl (fun p off => (update_dom_set p off).1) S) n =
        domsOf S n := fold_upd_domsOf_not_mem pre S n hnpre
    have hnmid : n < (pre.foldl (fun p off => (update_dom_set p off).1) S).length := by
      rw [fold_upd_length, hSl]
      exact hbound n (by simp)
    have hnew : domsOf ((pre ++ n :: suf).foldl
        (fun p off => (update_dom_set p off).1) S) n =
        dom_candidate (pre.foldl (fun p off => (update_dom_set p off).1) S) n := by
      rw [List.foldl_append, List.foldl_cons,
        fold_upd_domsOf_not_mem suf _ n hnsuf,
        update_dom_set_domsOf_self _ n hnmid]
    have hflag' : ((domsOf (pre.foldl (fun p off => (update_dom_set p off).1) S) n).length
        != (dom_candidate (pre.foldl
          (fun p off => (update_dom_set p off).1) S) n).length) = true := by
      have h2 := hf
      rw [update_dom_set_eq] at h2
      simpa using h2
    have hlenne : (domsOf ((pre ++ n :: suf).foldl
        (fun p off => (update_dom_set p off).1) S) n).length ≠
        (domsOf S n).length := by
      rw [hnew, ← hmidd]
      exact (bne_iff_ne.mp hflag').symm
    have hmu_le : ∀ m ∈ pre ++ n :: suf,
        domMu N (domsOf ((pre ++ n :: suf).foldl
          (fun p off => (update_dom_set p off).1) S) m) ≤
        domMu N (domsOf S m) := by
      intro m hm
      have hok := hInvS'.2 m
      exact domMu_le N (domsOf S m) _ hok.1 hok.2.1 (hne m hm) (hLe m)
    have hmu_lt : domMu N (domsOf ((pre ++ n :: suf).foldl
        (fun p off => (update_dom_set p off).1) S) n) <
        domMu N (domsOf S n) := by
      have hok := hInvS'.2 n
      exact domMu_lt N (domsOf S n) _ hok.1 hok.2.1 (hne n (by simp)) (hLe n)
        hlenne
    exact map_sum_lt pre suf n _ _ hmu_le hmu_lt

theorem run_passes_succ (ord : List Nat) (k : Nat) :
    ∀ P : List CFGNode,
      run_passes ord (k + 1) P = (run_pass ord (run_passes ord k P)).1 := by
  induction k with
  | zero => intro P; rfl
  | succ k ih => intro P; exact ih ((run_pass ord P).1)

theorem solver_terminates_general (N : Nat) (ord : List Nat) (p1 : List CFGNode)
    (hlen : p1.length = N) (hnd : ord.Nodup) (hbound : ∀ m ∈ ord, m < N)
    (hanc : ∀ pre n suf, ord = pre ++ n :: suf →
      n ≠ 0 ∧ n < N ∧ ∃ w ∈ predsOf p1 n, w = 0 ∨ w ∈ pre)
    (hInv : DomInv N p1)
    (hpos : ∀ i, i ≠ 0 → domsOf p1 i = []) :
    ∃ k, (run_pass ord (run_passes ord k p1)).2 = false := by
  have mkanc : ∀ Q : List CFGNode, (∀ i, predsOf Q i = predsOf p1 i) →
      ∀ pre n suf, ord = pre ++ n :: suf →
        n ≠ 0 ∧ n < N ∧ ∃ w ∈ predsOf Q n, w = 0 ∨ w ∈ ([] : List Nat) ++ pre := by
    intro Q hp pre n suf hdec
    obtain ⟨h1, h2, w, hw, hz⟩ := hanc pre n suf hdec
    exact ⟨h1, h2, w, by rw [hp n]; exact hw, by simpa using hz⟩
  have hA : ∀ k, (run_passes ord k p1).length = N ∧
      (∀ i, predsOf (run_passes ord k p1) i = predsOf p1 i) ∧
      DomInv N (run_passes ord k p1) := by
    intro k
    induction k with
    | zero => exact ⟨hlen, fun i => rfl, hInv⟩
    | succ k ih =>
      obtain ⟨hl, hp, hI⟩ := ih
      obtain ⟨rIS, -, -, -⟩ := pass2_induct N ord [] (run_passes ord k p1)
        (run_passes ord k p1) hl hl (fun i => rfl) hI hI (fun i => subset_refl _)
        (mkanc _ hp) (by simp)
      refine ⟨?_, ?_, ?_⟩
      · rw [run_passes_succ, run_pass_pool, fold_upd_length]
        exact hl
      · intro i
        rw [run_passes_succ, run_pass_pool, fold_upd_predsOf]
        exact hp i
      · rw [run_passes_succ, run_pass_pool]
        exact rIS
  have hC : ∀ k, ∀ m ∈ ord, 0 ∈ domsOf (run_passes ord (k + 1) p1) m := by
    intro k m hm
    obtain ⟨hl, hp, hI⟩ := hA k
    obtain ⟨-, -, -, rdone⟩ := pass2_induct N ord [] (run_passes ord k p1)
      (run_passes ord k p1) hl hl (fun i => rfl) hI hI (fun i => subset_refl _)
      (mkanc _ hp) (by simp)
    rw [run_passes_succ, run_pass_pool]
    exact (rdone m (by simpa using hm)).1
  have hB : ∀ k, DomsLe N (run_passes ord (k + 1) p1) (run_passes ord k p1) := by
    intro k
    induction k with
    | zero =>
      intro i
      by_cases hi : i = 0
      · subst hi
        show denoteD N (domsOf (run_passes ord 1 p1) 0) ⊆ denoteD N (domsOf p1 0)
        rw [(hA 1).2.2.1, hInv.1]
      · show denoteD N (domsOf (run_passes ord 1 p1) i) ⊆ denoteD N (domsOf p1 i)
        rw [hpos i hi, show denoteD N ([] : List Nat) = Finset.range N from
          if_pos rfl]
        exact denoteD_subset N _ ((hA 1).2.2.2 i).2.1
    | succ k ih =>
      obtain ⟨hlS, hpS, hIS⟩ := hA (k + 1)
      obtain ⟨hlT, hpT, hIT⟩ := hA k
      obtain ⟨-, -, rLe, -⟩ := pass2_induct N ord [] (run_passes ord (k + 1) p1)
        (run_passes ord k p1) hlS hlT (fun i => by rw [hpS i, hpT i]) hIS hIT ih
        (mkanc _ hpS) (by simp)
      have he1 : run_passes ord (k + 2) p1 =
          ord.foldl (fun p off => (update_dom_set p off).1)
            (run_passes ord (k + 1) p1) := by
        rw [run_passes_succ ord (k + 1), run_pass_pool]
      have he2 : run_passes ord (k + 1) p1 =
          ord.foldl (fun p off => (update_dom_set p off).1)
            (run_passes ord k p1) := by
        rw [run_passes_succ ord k, run_pass_pool]
      rw [← he2] at rLe
      rw [← he1] at rLe
      exact rLe
  by_contra hcon
  push_neg at hcon
  have hall : ∀ k, (run_pass ord (run_passes ord k p1)).2 = true := by
    intro k
    cases hres : (run_pass ord (run_passes ord k p1)).2
    · exact absurd hres (hcon k)
    · rfl
  have hdec : ∀ k,
      (ord.map (fun m => domMu N (domsOf (run_passes ord (k + 1 + 1) p1) m))).sum <
      (ord.map (fun m => domMu N (domsOf (run_passes ord (k + 1) p1) m))).sum := by
    intro k
    exact pass_measure_lt N ord (run_passes ord (k + 1) p1)
      (run_passes ord (k + 1 + 1) p1)
      (by rw [run_passes_succ ord (k + 1), run_pass_pool])
      hnd hbound (hA (k + 1)).1 (hA (k + 2)).2.2 (hB (k + 1))
      (fun m hm => List.ne_nil_of_mem (hC (k + 1) m hm))
      (hall (k + 1))
  have hseq : ∀ j,
      (ord.map (fun m => domMu N (domsOf (run_passes ord (j + 1) p1) m))).sum + j ≤
      (ord.map (fun m => domMu N (domsOf (run_passes ord 1 p1) m))).sum := by
    intro j
    induction j with
    | zero => simp
    | succ j ih =>
      have := hdec j
      omega
  have := hseq
    ((ord.map (fun m => domMu N (domsOf (run_passes ord 1 p1) m))).sum + 1)
  omega

theorem filter_decomp {α : Type} (p : α → Bool) (l : List α) :
    ∀ pre n suf, l.filter p = pre ++ n :: suf →
      ∃ pre' suf', l = pre' ++ n :: suf' ∧ pre'.filter p = pre := by
  induction l with
  | nil =>
    intro pre n suf h
    rw [List.filter_nil] at h
    exact absurd h.symm (by simp)
  | cons x l ih =>
    intro pre n suf h
    by_cases hpx : p x
    · rw [List.filter_cons_of_pos hpx] at h
      cases pre with
      | nil =>
        simp only [List.nil_append] at h
        injection h with h1 h2
        exact ⟨[], l, by rw [h1]; rfl, rfl⟩
      | cons y pre2 =>
        simp only [List.cons_append] at h
        injection h with h1 h2
        obtain ⟨pre', suf', hl, hf⟩ := ih pre2 n suf h2
        refine ⟨x :: pre', suf', by rw [hl]; rfl, ?_⟩
        rw [List.filter_cons_of_pos hpx, hf, h1]
    · rw [List.filter_cons_of_neg hpx] at h
      obtain ⟨pre', suf', hl, hf⟩ := ih pre n suf h
      refine ⟨x :: pre', suf', by rw [hl]; rfl, ?_⟩
      rw [List.filter_cons_of_neg hpx, hf]

theorem init_DomInv (pool : List CFGNode) (h : 0 < pool.length) :
    DomInv (init_dom_sets pool).length (init_dom_sets pool) := by
  have hz := init_dom_sets_doms_zero pool h
  refine ⟨hz, ?_⟩
  intro i
  cases i with
  | zero =>
    rw [hz]
    refine ⟨List.nodup_singleton 0, ?_, fun _ => by simp⟩
    intro d hd
    simp only [List.mem_singleton] at hd
    subst hd
    rwa [init_dom_sets_length]
  | succ k =>
    rw [init_dom_sets_doms_pos pool (k + 1) (by omega)]
    exact SetOk_nil _

theorem solver_terminates_rpo (pool : List CFGNode) (hWFp : PoolWF pool) :
    ∃ k, (run_pass (nonentry_rpo (init_dom_sets pool))
      (run_passes (nonentry_rpo (init_dom_sets pool)) k
        (init_dom_sets pool))).2 = false := by
  by_cases hord : nonentry_rpo (init_dom_sets pool) = []
  · refine ⟨0, ?_⟩
    rw [hord]
    rfl
  · have hp1ne : init_dom_sets pool ≠ [] := by
      intro h
      apply hord
      rw [h]
      decide
    have h0len : 0 < (init_dom_sets pool).length := List.length_pos.mpr hp1ne
    have h0pool : 0 < pool.length := by
      rwa [init_dom_sets_length] at h0len
    have hWF1 : ∀ i, ∀ s ∈ succsOf (init_dom_sets pool) i,
        s < (init_dom_sets pool).length := by
      intro i s hs
      rw [init_dom_sets_succsOf] at hs
      rw [init_dom_sets_length]
      exact hWFp.1 i s hs
    obtain ⟨-, hnodupPost, -, -, -, hltPost⟩ :=
      dfs_visit_marks (init_dom_sets pool) hWF1 (dfs_fuel (init_dom_sets pool))
        (List.replicate (init_dom_sets pool).length false) 0 (by simp) h0len
    have hnd : (nonentry_rpo (init_dom_sets pool)).Nodup := by
      unfold nonentry_rpo
      exact (List.nodup_reverse.mpr hnodupPost).filter _
    have hmem_post : ∀ m ∈ nonentry_rpo (init_dom_sets pool),
        m ∈ postOrder (init_dom_sets pool) ∧ m ≠ 0 := by
      intro m hm
      unfold nonentry_rpo at hm
      have h1 := List.mem_filter.mp hm
      exact ⟨List.mem_reverse.mp h1.1, by simpa using h1.2⟩
    have hbound : ∀ m ∈ nonentry_rpo (init_dom_sets pool),
        m < (init_dom_sets pool).length :=
      fun m hm => hltPost m (hmem_post m hm).1
    have hanc : ∀ pre n suf,
        nonentry_rpo (init_dom_sets pool) = pre ++ n :: suf →
        n ≠ 0 ∧ n < (init_dom_sets pool).length ∧
        ∃ w ∈ predsOf (init_dom_sets pool) n, w = 0 ∨ w ∈ pre := by
      intro pre n suf hdec
      have hnmem : n ∈ nonentry_rpo (init_dom_sets pool) := by
        rw [hdec]
        simp
      have hn0 : n ≠ 0 := (hmem_post n hnmem).2
      refine ⟨hn0, hbound n hnmem, ?_⟩
      obtain ⟨pre', suf', hrev, hfil⟩ := filter_decomp (fun b => b != 0)
        ((postOrder (init_dom_sets pool)).reverse) pre n suf hdec
      have hanch := dfs_visit_anchored (init_dom_sets pool)
        (dfs_fuel (init_dom_sets pool))
        (List.replicate (init_dom_sets pool).length false) 0 pre' n suf' hrev
      rcases hanch with rfl | ⟨w, hw, hws⟩
      · exact absurd rfl hn0
      · have hwpred : w ∈ predsOf (init_dom_sets pool) n := by
          rw [init_dom_sets_predsOf]
          apply hWFp.2.2 w n
          rw [← init_dom_sets_succsOf]
          exact hws
        refine ⟨w, hwpred, ?_⟩
        by_cases hw0 : w = 0
        · exact Or.inl hw0
        · right
          rw [← hfil]
          exact List.mem_filter.mpr ⟨hw, by simpa using hw0⟩
    have hpos : ∀ i, i ≠ 0 → domsOf (init_dom_sets pool) i = [] := by
      intro i hi
      exact init_dom_sets_doms_pos pool i (Nat.one_le_iff_ne_zero.mpr hi)
    exact solver_terminates_general (init_dom_sets pool).length
      (nonentry_rpo (init_dom_sets pool)) (init_dom_sets pool) rfl hnd hbound
      hanc (init_DomInv pool h0pool) hpos

/-- C6: the fixed-point iteration the specification describes — one pass
applies `update_dom_set` to every non-entry node in reverse postorder, and
the loop repeats while a pass reports the size-based `changed` flag —
terminates on the solver state built from any input stream: some pass
reports no change. -/
theorem c6_fixed_point_terminates (lines : List (List String)) :
    ∃ k, (run_pass (nonentry_rpo (init_dom_sets (ingest lines)))
      (run_passes (nonentry_rpo (init_dom_sets (ingest lines))) k
        (init_dom_sets (ingest lines)))).2 = false :=
  solver_terminates_rpo (ingest lines) (ingest_wf lines)
